import Mathlib

/-!
Verification of the core of the topaz-tak Tak engine against its
natural-language specification.

The development shallowly embeds the Rust sources:

* `src/bitboard.rs` — the 6×6 bitboard (`Bitboard6`), its mask discipline,
  `pop_lowest` and the flood-fill road check;
* `src/search/proof.rs` — the proof-number ("tinue") search: `Bounds`,
  `Child`, `compute_bounds`, `select_child`, `init_pns`, `mid`, `is_tinue`;
* `src/board/stack.rs` — per-square piece stacks with incremental
  bitboard/Zobrist maintenance;
* `src/lib.rs` — `execute_moves_check_valid`.

A `Bitboard6` value is represented by its underlying `u64` word as a `Nat`;
all words reachable through the public constructors satisfy the inner-mask
invariant `x &&& INNER = x`, so shifts never overflow 64 bits and `u64`
arithmetic agrees with `Nat` arithmetic wherever it is used.  `u32`
quantities of the search are represented as `Nat` with explicit `% 2 ^ 32`
where the source can wrap.  Rust functions whose bodies are not part of the
sources (board mutation, move generation, parsing) are taken as parameters
of the embedding; their contracts, where needed, are modelled from the
specification and stated as explicit hypotheses.
-/

namespace TopazTak

/-! ## Bitboard6 (src/bitboard.rs)

The 6×6 board lives in the inner bits of a 64-bit word; `Bitboard6::new`
masks its argument with the inner region.  Loops of the source
(`check_road`'s flood fill and component scan) are embedded with an
explicit fuel of 64: the flood fill adds at least one of the at most 36
inner bits per iteration and the outer scan removes at least one bit of
the unchecked set per iteration, so fuel 64 is never exhausted on any
masked input (proved below as `flood_fix` and used in `check_road_loop_false`).
-/

namespace Bitboard6

/-- `INNER`: the 6x6 board mask `0x7e7e7e7e7e7e00` from `Bitboard6::new`. -/
def INNER : Nat := 0x7e7e7e7e7e7e00

/-- `Bitboard6::new`: mask the data word to the inner 6x6 region. -/
def new (data : Nat) : Nat := data &&& INNER

/-- `impl BitAnd for Bitboard6`: `Bitboard6::new(self.0 & rhs)`. -/
def band (a b : Nat) : Nat := new (a &&& b)

/-- `impl BitOr for Bitboard6`: `Bitboard6::new(self.0 | rhs)`. -/
def bor (a b : Nat) : Nat := new (a ||| b)

/-- `impl Not for Bitboard6`: `Bitboard6::new(!self.0)`; `u64` complement is
xor with the all-ones word. -/
def bnot (a : Nat) : Nat := new ((2 ^ 64 - 1) ^^^ a)

/-- `impl BitOrAssign for Bitboard6`: `self.0 |= other.0` (no re-mask). -/
def borAssign (a b : Nat) : Nat := a ||| b

/-- `impl BitAndAssign for Bitboard6`: `self.0 &= other.0` (no re-mask). -/
def bandAssign (a b : Nat) : Nat := a &&& b

/-- `Bitboard6::adjacent`: union of the four one-step shifts, re-masked.
The `u64` left shifts are taken mod `2 ^ 64` exactly as the machine does. -/
def adjacent (d : Nat) : Nat :=
  new ((d >>> 8) ||| ((d <<< 8) % 2 ^ 64) ||| (d >>> 1) ||| ((d <<< 1) % 2 ^ 64))

/-- `nonzero` from the `Bitboard` trait: `self.0 != 0`. -/
def nonzero (a : Nat) : Bool := a != 0

/-- `u64::trailing_zeros`, fuel-indexed: the fuel bounds the number of
halvings, and 64 suffices for any value below `2 ^ 64`. -/
def tzAux : Nat → Nat → Nat
  | 0, _ => 64
  | fuel + 1, n => if n % 2 = 1 then 0 else 1 + tzAux fuel (n / 2)

/-- `u64::trailing_zeros`: 64 on the zero word. -/
def trailing_zeros (n : Nat) : Nat := if n = 0 then 64 else tzAux 64 n

/-- `Bitboard6::pop_lowest` as a pure function: returns the popped
single-bit board (`Bitboard6::new(1 << trailing_zeros)`) together with the
remaining board (`self.0 ^= value`); a zero board stays zero. -/
def pop_lowest (n : Nat) : Nat × Nat :=
  let highest_index := trailing_zeros n
  if highest_index = 64 then (new 0, n)
  else
    let value := 1 <<< highest_index
    (new value, n ^^^ value)

/-- The `INDEX_TO_BIT` table of `Bitboard6`. -/
def INDEX_TO_BIT : List Nat :=
  [ 9, 10, 11, 12, 13, 14,
   17, 18, 19, 20, 21, 22,
   25, 26, 27, 28, 29, 30,
   33, 34, 35, 36, 37, 38,
   41, 42, 43, 44, 45, 46,
   49, 50, 51, 52, 53, 54]

/-- `Bitboard6::index_to_bit`: `1 << INDEX_TO_BIT[idx]` (the source's array
access panics past 35; out-of-range indices are given bit 0 here and are
excluded from every statement). -/
def index_to_bit (idx : Nat) : Nat := 1 <<< INDEX_TO_BIT.getD idx 0

/-- The road-check constants of `Bitboard6::check_road`. -/
def LEFT_TOP : Nat := new 0x2020202027e00

def TOP : Nat := new 0x7e00

def BOTTOM : Nat := new 0x7e000000000000

def LEFT : Nat := new 0x2020202020200

def RIGHT : Nat := new 0x40404040404000

/-- The inner `while component != prev` loop of `check_road`: saturate the
component under `component |= component.adjacent() & self`.  Each
non-fixpoint iteration adds an inner bit, so fuel 64 always reaches the
fixpoint (lemma `flood_fix`). -/
def flood (d : Nat) : Nat → Nat → Nat
  | 0, component => component
  | fuel + 1, component =>
    let next := borAssign component (band (adjacent component) d)
    if next = component then component else flood d fuel next

/-- The outer `while unchecked.nonzero()` loop of `check_road`: pop a seed,
flood it, test the four edges, and drop the component from the unchecked
set.  Each iteration clears at least the popped bit, so fuel 64 suffices
for any masked input (lemma `check_road_loop_false`). -/
def check_road_loop (d : Nat) : Nat → Nat → Bool
  | 0, _ => false
  | fuel + 1, unchecked =>
    if nonzero unchecked then
      let seed := (pop_lowest unchecked).1
      let unchecked' := (pop_lowest unchecked).2
      let component := flood d 64 seed
      if nonzero (band component TOP) && nonzero (band component BOTTOM) then true
      else if nonzero (band component LEFT) && nonzero (band component RIGHT) then true
      else check_road_loop d fuel (band unchecked' (bnot component))
    else false

/-- `Bitboard6::check_road`: seed the scan from `self & LEFT_TOP`. -/
def check_road (d : Nat) : Bool := check_road_loop d 64 (band d LEFT_TOP)

/-! ### The inner-mask invariant (claim C9) -/

/-- The border-bits-zero invariant of the specification: every bit outside
the inner mask is clear. -/
def inv (x : Nat) : Prop := x &&& INNER = x

instance (x : Nat) : Decidable (inv x) := by unfold inv; infer_instance

theorem and_self_right (a b : Nat) : a &&& b &&& b = a &&& b := by
  apply Nat.eq_of_testBit_eq
  intro i
  simp [Nat.testBit_land, Bool.and_assoc]

theorem inv_new (d : Nat) : inv (new d) := by
  unfold inv new
  exact and_self_right d INNER

theorem inv_band (a b : Nat) : inv (band a b) := inv_new _

theorem testBit_INNER_of_inv {x : Nat} (h : inv x) {i : Nat}
    (hi : x.testBit i = true) : INNER.testBit i = true := by
  have := congrArg (fun t => t.testBit i) h
  simp only [Nat.testBit_land] at this
  rw [hi] at this
  simpa using this.symm

theorem inv_of_subset {x y : Nat} (h : inv y)
    (hsub : ∀ i, x.testBit i = true → y.testBit i = true) : inv x := by
  apply Nat.eq_of_testBit_eq
  intro i
  simp only [Nat.testBit_land]
  cases hx : x.testBit i with
  | false => simp
  | true => simp [testBit_INNER_of_inv h (hsub i hx)]

theorem lt_two_pow_64_of_inv {x : Nat} (h : inv x) : x < 2 ^ 64 := by
  calc x = x &&& INNER := h.symm
    _ ≤ INNER := Nat.and_le_right
    _ < 2 ^ 64 := by unfold INNER; omega

theorem testBit_lt_64_of_inv {x : Nat} (h : inv x) {i : Nat}
    (hi : x.testBit i = true) : i < 64 := by
  by_contra hge
  have : x < 2 ^ i :=
    lt_of_lt_of_le (lt_two_pow_64_of_inv h) (Nat.pow_le_pow_right (by omega) (by omega))
  rw [Nat.testBit_eq_false_of_lt this] at hi
  exact Bool.false_ne_true hi

theorem tzAux_spec : ∀ (fuel n : Nat), 0 < n → n < 2 ^ fuel →
    n.testBit (tzAux fuel n) = true ∧ ∀ j, j < tzAux fuel n → n.testBit j = false := by
  intro fuel
  induction fuel with
  | zero => intro n h0 hlt; omega
  | succ f ih =>
    intro n h0 hlt
    unfold tzAux
    have hp : 2 ^ (f + 1) = 2 ^ f * 2 := pow_succ 2 f
    by_cases hodd : n % 2 = 1
    · rw [if_pos hodd]
      constructor
      · rw [Nat.testBit_zero]; simp [hodd]
      · omega
    · have h2 : n % 2 = 0 := by omega
      have hpos : 0 < n / 2 := by omega
      have hlt2 : n / 2 < 2 ^ f := by omega
      obtain ⟨h1, hall⟩ := ih (n / 2) hpos hlt2
      rw [if_neg hodd]
      refine ⟨?_, ?_⟩
      · have := Nat.testBit_div_two n (tzAux f (n / 2))
        rw [h1] at this
        rw [show 1 + tzAux f (n / 2) = tzAux f (n / 2) + 1 by omega]
        exact this.symm
      · intro j hj
        match j with
        | 0 => rw [Nat.testBit_zero]; simp [h2]
        | j + 1 =>
          have := Nat.testBit_div_two n j
          rw [hall j (by omega)] at this
          exact this.symm

theorem trailing_zeros_spec {n : Nat} (h0 : 0 < n) (hlt : n < 2 ^ 64) :
    n.testBit (trailing_zeros n) = true ∧
      ∀ j, j < trailing_zeros n → n.testBit j = false := by
  unfold trailing_zeros
  rw [if_neg (by omega)]
  exact tzAux_spec 64 n h0 hlt

theorem trailing_zeros_lt_64 {n : Nat} (h0 : 0 < n) (hlt : n < 2 ^ 64) :
    trailing_zeros n < 64 := by
  obtain ⟨h1, -⟩ := trailing_zeros_spec h0 hlt
  by_contra hge
  have : n < 2 ^ trailing_zeros n :=
    lt_of_lt_of_le hlt (Nat.pow_le_pow_right (by omega) (by omega))
  rw [Nat.testBit_eq_false_of_lt this] at h1
  exact Bool.false_ne_true h1

theorem testBit_xor_two_pow (x k i : Nat) :
    (x ^^^ 2 ^ k).testBit i = (x.testBit i).xor (decide (k = i)) := by
  rw [Nat.testBit_xor, Nat.testBit_two_pow]

theorem xor_two_pow_lt {x k : Nat} (h : x.testBit k = true) : x ^^^ 2 ^ k < x := by
  apply Nat.lt_of_testBit k
  · rw [testBit_xor_two_pow, h]; simp
  · exact h
  · intro j hj
    rw [testBit_xor_two_pow]
    simp [show k ≠ j by omega]

/-- Characterisation of `pop_lowest` on a nonzero masked word: it returns
the power of two at the least set bit and the word with that bit cleared. -/
theorem pop_lowest_spec {x : Nat} (h : inv x) (hx : x ≠ 0) :
    x.testBit (trailing_zeros x) = true ∧
      (∀ j, j < trailing_zeros x → x.testBit j = false) ∧
      (pop_lowest x).1 = 2 ^ trailing_zeros x ∧
      (pop_lowest x).2 = x ^^^ 2 ^ trailing_zeros x := by
  have hlt := lt_two_pow_64_of_inv h
  obtain ⟨h1, hall⟩ := trailing_zeros_spec (Nat.pos_of_ne_zero hx) hlt
  have hne : trailing_zeros x ≠ 64 := by
    have := trailing_zeros_lt_64 (Nat.pos_of_ne_zero hx) hlt
    omega
  have hpow : (1 : Nat) <<< trailing_zeros x = 2 ^ trailing_zeros x := by
    rw [Nat.shiftLeft_eq, one_mul]
  have hmask : new (2 ^ trailing_zeros x) = 2 ^ trailing_zeros x := by
    apply Nat.eq_of_testBit_eq
    intro i
    unfold new
    rw [Nat.testBit_land, Nat.testBit_two_pow]
    by_cases hik : trailing_zeros x = i
    · subst hik
      simp [testBit_INNER_of_inv h h1]
    · simp [hik]
  refine ⟨h1, hall, ?_, ?_⟩
  · unfold pop_lowest
    simp only [if_neg hne, hpow, hmask]
  · unfold pop_lowest
    simp only [if_neg hne, hpow]

theorem pop_lowest_zero : pop_lowest 0 = (0, 0) := by
  unfold pop_lowest trailing_zeros
  simp [new]

theorem inv_xor_clear {x : Nat} (h : inv x) {k : Nat} (hk : x.testBit k = true) :
    inv (x ^^^ 2 ^ k) := by
  apply inv_of_subset h
  intro i hi
  rw [testBit_xor_two_pow] at hi
  by_cases hik : k = i
  · subst hik; rw [hk] at hi; simp at hi
  · simpa [hik] using hi

/-- **C9.** `Bitboard6::new` clears every bit outside the inner mask, and
each bitboard operation maps words satisfying the border-bits-zero
invariant to words satisfying it (for `index_to_bit`, at the 36 valid
square indices). -/
theorem bitboard6_ops_preserve_inner_mask :
    (∀ d, inv (new d)) ∧
    (∀ d, inv (adjacent d)) ∧
    (∀ a b, inv (band a b)) ∧
    (∀ a b, inv (bor a b)) ∧
    (∀ a, inv (bnot a)) ∧
    (∀ a b, inv a → inv b → inv (borAssign a b)) ∧
    (∀ a b, inv a → inv (bandAssign a b)) ∧
    (∀ a, inv a → inv (pop_lowest a).1 ∧ inv (pop_lowest a).2) ∧
    (∀ idx, idx < 36 → inv (index_to_bit idx)) := by
  refine ⟨inv_new, fun d => inv_new _, fun a b => inv_new _, fun a b => inv_new _,
    fun a => inv_new _, ?_, ?_, ?_, ?_⟩
  · intro a b ha hb
    apply inv_of_subset (y := a ||| b) ?_ (fun i hi => hi)
    unfold inv at ha hb ⊢
    apply Nat.eq_of_testBit_eq
    intro i
    have ha' := congrArg (fun t => t.testBit i) ha
    have hb' := congrArg (fun t => t.testBit i) hb
    simp only [Nat.testBit_land] at ha' hb'
    simp only [borAssign, Nat.testBit_land, Nat.testBit_lor]
    cases hA : a.testBit i <;> cases hB : b.testBit i <;>
      simp_all
  · intro a b ha
    apply inv_of_subset ha
    intro i hi
    unfold bandAssign at hi
    rw [Nat.testBit_land] at hi
    exact (Bool.and_eq_true _ _ |>.mp hi).1
  · intro a ha
    by_cases haz : a = 0
    · subst haz
      rw [pop_lowest_zero]
      constructor <;> simp [inv]
    · obtain ⟨h1, -, hfst, hsnd⟩ := pop_lowest_spec ha haz
      constructor
      · rw [hfst]
        apply inv_of_subset ha
        intro i hi
        rw [Nat.testBit_two_pow] at hi
        have : trailing_zeros a = i := of_decide_eq_true hi
        rwa [← this]
      · rw [hsnd]
        exact inv_xor_clear ha h1
  · intro idx hidx
    revert hidx
    revert idx
    decide

/-- Witness for C9: concrete instantiations discharging each hypothesis. -/
theorem bitboard6_ops_preserve_inner_mask_w :
    inv (borAssign 0x7e00 0x200) ∧ inv (bandAssign 0x7e00 0xff) ∧
      (inv (pop_lowest 0x7e00).1 ∧ inv (pop_lowest 0x7e00).2) ∧
      inv (index_to_bit 35) := by
  refine ⟨?_, ?_, ?_, ?_⟩
  · exact bitboard6_ops_preserve_inner_mask.2.2.2.2.2.1 0x7e00 0x200
      (by decide) (by decide)
  · exact bitboard6_ops_preserve_inner_mask.2.2.2.2.2.2.1 0x7e00 0xff (by decide)
  · exact bitboard6_ops_preserve_inner_mask.2.2.2.2.2.2.2.1 0x7e00 (by decide)
  · exact bitboard6_ops_preserve_inner_mask.2.2.2.2.2.2.2.2 35 (by decide)

/-- **C10.** `pop_lowest` returns the bitboard holding only the lowest set
bit and clears exactly that bit; on the empty board it returns the empty
board and leaves it empty; and the concrete example of the source's unit
test evaluates as claimed. -/
theorem pop_lowest_correct :
    (∀ d : Nat, new d ≠ 0 →
      ∃ k, (new d).testBit k = true ∧ (∀ j, j < k → (new d).testBit j = false) ∧
        (pop_lowest (new d)).1 = 2 ^ k ∧
        (∀ i, ((pop_lowest (new d)).2).testBit i =
          ((new d).testBit i && !(decide (i = k))))) ∧
    pop_lowest 0 = (0, 0) ∧
    pop_lowest (new 0x20103c007e00) = (0x200, 0x20103c007c00) := by
  refine ⟨?_, pop_lowest_zero, by decide⟩
  intro d hd
  obtain ⟨h1, hall, hfst, hsnd⟩ := pop_lowest_spec (inv_new d) hd
  refine ⟨trailing_zeros (new d), h1, hall, hfst, ?_⟩
  intro i
  rw [hsnd, testBit_xor_two_pow]
  by_cases hik : trailing_zeros (new d) = i
  · subst hik; simp [h1]
  · simp [hik, Ne.symm hik]

/-- Witness for C10: the nonzero case at the unit-test input. -/
theorem pop_lowest_correct_w :
    ∃ k, (new 0x20103c007e00).testBit k = true ∧
      (∀ j, j < k → (new 0x20103c007e00).testBit j = false) ∧
      (pop_lowest (new 0x20103c007e00)).1 = 2 ^ k ∧
      (∀ i, ((pop_lowest (new 0x20103c007e00)).2).testBit i =
        ((new 0x20103c007e00).testBit i && !(decide (i = k)))) :=
  pop_lowest_correct.1 0x20103c007e00 (by decide)

/-! ### Road-check correctness (claim C1) -/

theorem inv_INNER : inv INNER := Nat.and_self INNER

theorem testBit_INNER_lt {i : Nat} (h : INNER.testBit i = true) : i < 64 :=
  testBit_lt_64_of_inv inv_INNER h

/-- Bit-level characterisation of `adjacent` at an inner position. -/
theorem testBit_adjacent {i : Nat} (d : Nat) (hI : INNER.testBit i = true) :
    (adjacent d).testBit i =
      (d.testBit (8 + i) || (decide (8 ≤ i) && d.testBit (i - 8)) ||
        d.testBit (1 + i) || (decide (1 ≤ i) && d.testBit (i - 1))) := by
  have h64 : i < 64 := testBit_INNER_lt hI
  unfold adjacent new
  rw [Nat.testBit_land, Nat.testBit_lor, Nat.testBit_lor, Nat.testBit_lor,
    Nat.testBit_mod_two_pow, Nat.testBit_mod_two_pow, Nat.testBit_shiftLeft,
    Nat.testBit_shiftLeft, Nat.testBit_shiftRight, Nat.testBit_shiftRight]
  simp [hI, h64, ge_iff_le]

/-- 4-adjacency of raw bit positions: one step along a row (±1) or a
column (±8).  Within the inner region this is exactly grid adjacency,
because the never-set border files separate consecutive rows. -/
def adjIdx (i j : Nat) : Prop := j = i + 1 ∨ i = j + 1 ∨ j = i + 8 ∨ i = j + 8

/-- One step between two set squares of the bitboard `r`. -/
def stepR (r a b : Nat) : Prop :=
  r.testBit a = true ∧ r.testBit b = true ∧ adjIdx a b

/-- Connectivity inside the bitboard `r`. -/
def reach (r : Nat) : Nat → Nat → Prop := Relation.ReflTransGen (stepR r)

/-- The specification of the road check: some 4-connected component of the
(masked) board contains squares on two opposite edges. -/
def hasRoadSpec (r : Nat) : Prop :=
  (∃ a b, TOP.testBit a = true ∧ BOTTOM.testBit b = true ∧
    r.testBit a = true ∧ r.testBit b = true ∧ reach r a b) ∨
  (∃ a b, LEFT.testBit a = true ∧ RIGHT.testBit b = true ∧
    r.testBit a = true ∧ r.testBit b = true ∧ reach r a b)

theorem stepR_symm (r : Nat) : Symmetric (stepR r) := by
  rintro a b ⟨ha, hb, hadj⟩
  refine ⟨hb, ha, ?_⟩
  unfold adjIdx at hadj ⊢
  omega

theorem reach_symm {r a b : Nat} (h : reach r a b) : reach r b a :=
  Relation.ReflTransGen.symmetric (stepR_symm r) h

theorem adjacent_of_adjIdx {d i j : Nat} (hI : INNER.testBit j = true)
    (hd : d.testBit i = true) (hadj : adjIdx i j) :
    (adjacent d).testBit j = true := by
  rw [testBit_adjacent d hI]
  rcases hadj with h | h | h | h
  · have h1 : 1 ≤ j := by omega
    have h2 : j - 1 = i := by omega
    simp [h1, h2, hd]
  · have h2 : 1 + j = i := by omega
    simp [h2, hd]
  · have h1 : 8 ≤ j := by omega
    have h2 : j - 8 = i := by omega
    simp [h1, h2, hd]
  · have h2 : 8 + j = i := by omega
    simp [h2, hd]

theorem adjIdx_of_adjacent {d j : Nat} (h : (adjacent d).testBit j = true) :
    INNER.testBit j = true ∧ ∃ i, d.testBit i = true ∧ adjIdx i j := by
  have hI : INNER.testBit j = true := by
    have : (adjacent d).testBit j = ((d >>> 8 ||| d <<< 8 % 2 ^ 64 ||| d >>> 1 |||
        d <<< 1 % 2 ^ 64).testBit j && INNER.testBit j) := by
      unfold adjacent new
      rw [Nat.testBit_land]
    rw [this] at h
    exact (Bool.and_eq_true _ _ |>.mp h).2
  refine ⟨hI, ?_⟩
  rw [testBit_adjacent d hI] at h
  rcases Bool.or_eq_true _ _ |>.mp h with h' | h'
  · rcases Bool.or_eq_true _ _ |>.mp h' with h'' | h''
    · rcases Bool.or_eq_true _ _ |>.mp h'' with h3 | h3
      · exact ⟨8 + j, h3, by unfold adjIdx; omega⟩
      · obtain ⟨h4, h5⟩ := Bool.and_eq_true _ _ |>.mp h3
        have : 8 ≤ j := of_decide_eq_true h4
        exact ⟨j - 8, h5, by unfold adjIdx; omega⟩
    · exact ⟨1 + j, h'', by unfold adjIdx; omega⟩
  · obtain ⟨h4, h5⟩ := Bool.and_eq_true _ _ |>.mp h'
    have : 1 ≤ j := of_decide_eq_true h4
    exact ⟨j - 1, h5, by unfold adjIdx; omega⟩

theorem testBit_band {x y i : Nat} :
    (band x y).testBit i = (x.testBit i && y.testBit i && INNER.testBit i) := by
  unfold band new
  rw [Nat.testBit_land, Nat.testBit_land]

/-- The flood fill only grows the component. -/
theorem flood_subset (d : Nat) : ∀ (fuel c : Nat) (i : Nat),
    c.testBit i = true → (flood d fuel c).testBit i = true := by
  intro fuel
  induction fuel with
  | zero => intro c i h; simpa [flood] using h
  | succ f ih =>
    intro c i h
    simp only [flood]
    split
    · exact h
    · apply ih
      unfold borAssign
      rw [Nat.testBit_lor, h]
      rfl

/-- Soundness of the flood fill: every square it reaches lies in `r` and is
connected to the seed `s` inside `r`. -/
theorem flood_sound {r s : Nat} : ∀ (fuel c : Nat),
    (∀ i, c.testBit i = true → r.testBit i = true ∧ reach r s i) →
    ∀ i, (flood r fuel c).testBit i = true → r.testBit i = true ∧ reach r s i := by
  intro fuel
  induction fuel with
  | zero => intro c hc i h; exact hc i (by simpa [flood] using h)
  | succ f ih =>
    intro c hc i h
    simp only [flood] at h
    split at h
    · exact hc i h
    · refine ih _ ?_ i h
      intro j hj
      unfold borAssign at hj
      rw [Nat.testBit_lor] at hj
      rcases Bool.or_eq_true _ _ |>.mp hj with hj | hj
      · exact hc j hj
      · rw [testBit_band] at hj
        obtain ⟨hj1, hj3⟩ := Bool.and_eq_true _ _ |>.mp hj
        obtain ⟨hj1, hj2⟩ := Bool.and_eq_true _ _ |>.mp hj1
        obtain ⟨-, a, ha, hadj⟩ := adjIdx_of_adjacent hj1
        obtain ⟨hra, hreach⟩ := hc a ha
        exact ⟨hj2, hreach.tail ⟨hra, hj2, hadj⟩⟩

/-- The set bits of a word below `2 ^ 64`. -/
def bitsOf (n : Nat) : Finset Nat :=
  (Finset.range 64).filter (fun i => n.testBit i = true)

theorem mem_bitsOf {n i : Nat} : i ∈ bitsOf n ↔ i < 64 ∧ n.testBit i = true := by
  unfold bitsOf
  simp [Finset.mem_filter, Finset.mem_range]

theorem card_bitsOf_lt {c c' : Nat} (hc' : c' < 2 ^ 64)
    (hsub : ∀ i, c.testBit i = true → c'.testBit i = true) (hne : c ≠ c') :
    (bitsOf c).card < (bitsOf c').card := by
  apply Finset.card_lt_card
  rw [Finset.ssubset_iff_of_subset]
  · by_contra hno
    push_neg at hno
    apply hne
    apply Nat.eq_of_testBit_eq
    intro i
    cases hci : c.testBit i with
    | true => rw [hsub i hci]
    | false =>
      cases hci' : c'.testBit i with
      | false => rfl
      | true =>
        have hi : i < 64 := by
          by_contra hge
          have : c' < 2 ^ i :=
            lt_of_lt_of_le hc' (Nat.pow_le_pow_right (by omega) (by omega))
          rw [Nat.testBit_eq_false_of_lt this] at hci'
          exact Bool.false_ne_true hci'
        have := hno i (mem_bitsOf.mpr ⟨hi, hci'⟩)
        rw [mem_bitsOf] at this
        simp [this.2] at hci
  · intro i hi
    rw [mem_bitsOf] at hi ⊢
    exact ⟨hi.1, hsub i hi.2⟩

theorem card_bitsOf_le (n : Nat) : (bitsOf n).card ≤ 64 := by
  calc (bitsOf n).card ≤ (Finset.range 64).card := Finset.card_filter_le _ _
    _ = 64 := Finset.card_range 64

/-- With enough fuel the flood fill reaches a fixpoint of its one-step
update. -/
theorem flood_fix {r : Nat} : ∀ (fuel c : Nat), c < 2 ^ 64 →
    64 < (bitsOf c).card + fuel →
    borAssign (flood r fuel c) (band (adjacent (flood r fuel c)) r) =
      flood r fuel c := by
  intro fuel
  induction fuel with
  | zero =>
    intro c _ hcard
    have := card_bitsOf_le c
    omega
  | succ f ih =>
    intro c hc hcard
    simp only [flood]
    split
    · assumption
    · rename_i hne
      set next := borAssign c (band (adjacent c) r) with hnext
      have hsub : ∀ i, c.testBit i = true → next.testBit i = true := by
        intro i hi
        rw [hnext]
        unfold borAssign
        rw [Nat.testBit_lor, hi]
        rfl
      have hlt : next < 2 ^ 64 := by
        rw [hnext]
        unfold borAssign
        apply Nat.or_lt_two_pow hc
        calc band (adjacent c) r ≤ INNER := Nat.and_le_right
          _ < 2 ^ 64 := by unfold INNER; omega
      exact ih next hlt (by
        have := card_bitsOf_lt hlt hsub (fun h => hne h.symm)
        omega)

/-- A fixpoint of the flood update that contains a square contains its whole
connected component. -/
theorem reach_subset_of_fix {r F : Nat} (hr : inv r)
    (hfix : borAssign F (band (adjacent F) r) = F) {s : Nat}
    (hs : F.testBit s = true) : ∀ b, reach r s b → F.testBit b = true := by
  intro b h
  induction h with
  | refl => exact hs
  | tail _ hstep ih =>
    rename_i b' c _
    obtain ⟨hb', hc, hadj⟩ := hstep
    have hI : INNER.testBit c = true := testBit_INNER_of_inv hr hc
    have hadjF : (adjacent F).testBit c = true := adjacent_of_adjIdx hI ih hadj
    have : (borAssign F (band (adjacent F) r)).testBit c = true := by
      unfold borAssign
      rw [Nat.testBit_lor, testBit_band, hadjF, hc, hI]
      simp
    rwa [hfix] at this

theorem testBit_of_and_eq {A B : Nat} (h : A &&& B = A) {i : Nat}
    (hi : A.testBit i = true) : B.testBit i = true := by
  have := congrArg (fun t => t.testBit i) h
  simp only [Nat.testBit_land] at this
  rw [hi] at this
  simpa using this.symm

theorem nonzero_band_iff {x y : Nat} : nonzero (band x y) = true ↔
    ∃ a, x.testBit a = true ∧ y.testBit a = true ∧ INNER.testBit a = true := by
  unfold nonzero
  rw [bne_iff_ne]
  constructor
  · intro h
    obtain ⟨a, ha⟩ := Nat.ne_zero_implies_bit_true h
    rw [testBit_band] at ha
    obtain ⟨ha1, ha3⟩ := Bool.and_eq_true _ _ |>.mp ha
    obtain ⟨ha1, ha2⟩ := Bool.and_eq_true _ _ |>.mp ha1
    exact ⟨a, ha1, ha2, ha3⟩
  · rintro ⟨a, hx, hy, hI⟩ h0
    have : (band x y).testBit a = true := by rw [testBit_band, hx, hy, hI]; rfl
    rw [h0, Nat.zero_testBit] at this
    exact Bool.false_ne_true this

/-- The component of `s` touches both the top and the bottom edge. -/
def connTB (r s : Nat) : Prop :=
  (∃ a, TOP.testBit a = true ∧ reach r s a) ∧
  (∃ b, BOTTOM.testBit b = true ∧ reach r s b)

/-- The component of `s` touches both the left and the right edge. -/
def connLR (r s : Nat) : Prop :=
  (∃ a, LEFT.testBit a = true ∧ reach r s a) ∧
  (∃ b, RIGHT.testBit b = true ∧ reach r s b)

/-- The component of `s` yields no road. -/
def compFails (r s : Nat) : Prop := ¬connTB r s ∧ ¬connLR r s

theorem compFails_of_reach {r k i : Nat} (hki : reach r k i)
    (h : compFails r k) : compFails r i := by
  refine ⟨fun hTB => h.1 ?_, fun hLR => h.2 ?_⟩
  · obtain ⟨⟨a, ha, hra⟩, ⟨b, hb, hrb⟩⟩ := hTB
    exact ⟨⟨a, ha, hki.trans hra⟩, ⟨b, hb, hki.trans hrb⟩⟩
  · obtain ⟨⟨a, ha, hra⟩, ⟨b, hb, hrb⟩⟩ := hLR
    exact ⟨⟨a, ha, hki.trans hra⟩, ⟨b, hb, hki.trans hrb⟩⟩

/-- The flooded seed component is exactly the connected component of the
popped square inside `r`. -/
theorem component_spec {r u : Nat} (hr : inv r) (hu : inv u)
    (hsub : ∀ i, u.testBit i = true → r.testBit i = true) (hne : u ≠ 0) :
    (∀ j, (flood r 64 (pop_lowest u).1).testBit j = true →
      r.testBit j = true ∧ reach r (trailing_zeros u) j) ∧
    (∀ j, reach r (trailing_zeros u) j →
      (flood r 64 (pop_lowest u).1).testBit j = true) := by
  obtain ⟨hk, -, hfst, -⟩ := pop_lowest_spec hu hne
  set k := trailing_zeros u with hkdef
  have hk64 : k < 64 := testBit_lt_64_of_inv hu hk
  have hrk : r.testBit k = true := hsub k hk
  have hseed : ∀ i, ((2 : Nat) ^ k).testBit i = true →
      r.testBit i = true ∧ reach r k i := by
    intro i hi
    rw [Nat.testBit_two_pow] at hi
    have : k = i := of_decide_eq_true hi
    subst this
    exact ⟨hrk, Relation.ReflTransGen.refl⟩
  have hsound := flood_sound (r := r) (s := k) 64 (pop_lowest u).1 (by rw [hfst]; exact hseed)
  refine ⟨hsound, ?_⟩
  have hcontains : (flood r 64 (pop_lowest u).1).testBit k = true := by
    apply flood_subset
    rw [hfst, Nat.testBit_two_pow]
    simp
  have hfix := flood_fix (r := r) 64 (pop_lowest u).1
    (by rw [hfst]; exact Nat.pow_lt_pow_right (by omega) hk64)
    (by
      have : k ∈ bitsOf (pop_lowest u).1 := by
        rw [mem_bitsOf, hfst, Nat.testBit_two_pow]
        exact ⟨hk64, by simp⟩
      have := Finset.card_pos.mpr ⟨k, this⟩
      omega)
  exact reach_subset_of_fix hr hfix hcontains

theorem testBit_bnot {c i : Nat} (hi : i < 64) :
    (bnot c).testBit i = (!c.testBit i && INNER.testBit i) := by
  unfold bnot new
  rw [Nat.testBit_land, Nat.testBit_xor, Nat.testBit_two_pow_sub_one]
  simp [hi]

/-- Soundness of the component scan: if it reports a road, the
specification holds. -/
theorem check_road_loop_true {r : Nat} (hr : inv r) :
    ∀ (fuel u : Nat), inv u → (∀ i, u.testBit i = true → r.testBit i = true) →
      check_road_loop r fuel u = true → hasRoadSpec r := by
  intro fuel
  induction fuel with
  | zero => intro u _ _ h; simp [check_road_loop] at h
  | succ f ih =>
    intro u hu hsub h
    simp only [check_road_loop] at h
    by_cases hnz : nonzero u = true
    swap
    · rw [if_neg hnz] at h; cases h
    rw [if_pos hnz] at h
    have hune : u ≠ 0 := by
      unfold nonzero at hnz
      exact bne_iff_ne.mp hnz
    obtain ⟨hsound, hclosed⟩ := component_spec hr hu hsub hune
    by_cases t1 : (nonzero (band (flood r 64 (pop_lowest u).1) TOP) &&
        nonzero (band (flood r 64 (pop_lowest u).1) BOTTOM)) = true
    · obtain ⟨t1a, t1b⟩ := Bool.and_eq_true _ _ |>.mp t1
      obtain ⟨a, hca, hTa, -⟩ := nonzero_band_iff.mp t1a
      obtain ⟨b, hcb, hBb, -⟩ := nonzero_band_iff.mp t1b
      obtain ⟨hra, hka⟩ := hsound a hca
      obtain ⟨hrb, hkb⟩ := hsound b hcb
      exact Or.inl ⟨a, b, hTa, hBb, hra, hrb, (reach_symm hka).trans hkb⟩
    · rw [if_neg t1] at h
      by_cases t2 : (nonzero (band (flood r 64 (pop_lowest u).1) LEFT) &&
          nonzero (band (flood r 64 (pop_lowest u).1) RIGHT)) = true
      · obtain ⟨t2a, t2b⟩ := Bool.and_eq_true _ _ |>.mp t2
        obtain ⟨a, hca, hLa, -⟩ := nonzero_band_iff.mp t2a
        obtain ⟨b, hcb, hRb, -⟩ := nonzero_band_iff.mp t2b
        obtain ⟨hra, hka⟩ := hsound a hca
        obtain ⟨hrb, hkb⟩ := hsound b hcb
        exact Or.inr ⟨a, b, hLa, hRb, hra, hrb, (reach_symm hka).trans hkb⟩
      · rw [if_neg t2] at h
        refine ih _ (inv_band _ _) ?_ h
        intro i hi
        rw [testBit_band] at hi
        obtain ⟨hi1, -⟩ := Bool.and_eq_true _ _ |>.mp hi
        obtain ⟨hi1, -⟩ := Bool.and_eq_true _ _ |>.mp hi1
        obtain ⟨hk, -, -, hsnd⟩ := pop_lowest_spec hu hune
        rw [hsnd, testBit_xor_two_pow] at hi1
        apply hsub
        by_cases hik : trailing_zeros u = i
        · rw [← hik]; exact hk
        · simpa [hik] using hi1

/-- Completeness of the component scan: if it reports no road, every
square of the unchecked set has a failing component.  The fuel hypothesis
is satisfied at the top level since at most 36 inner bits exist. -/
theorem check_road_loop_false {r : Nat} (hr : inv r) :
    ∀ (fuel u : Nat), inv u → (∀ i, u.testBit i = true → r.testBit i = true) →
      (bitsOf u).card < fuel → check_road_loop r fuel u = false →
      ∀ i, u.testBit i = true → compFails r i := by
  intro fuel
  induction fuel with
  | zero => intro u _ _ hcard; omega
  | succ f ih =>
    intro u hu hsub hcard h i hui
    have hune : u ≠ 0 := by
      intro h0
      rw [h0, Nat.zero_testBit] at hui
      exact Bool.false_ne_true hui
    have hnz : nonzero u = true := by
      unfold nonzero
      exact bne_iff_ne.mpr hune
    simp only [check_road_loop] at h
    rw [if_pos hnz] at h
    obtain ⟨hsound, hclosed⟩ := component_spec hr hu hsub hune
    obtain ⟨hk, -, hfst, hsnd⟩ := pop_lowest_spec hu hune
    by_cases t1 : (nonzero (band (flood r 64 (pop_lowest u).1) TOP) &&
        nonzero (band (flood r 64 (pop_lowest u).1) BOTTOM)) = true
    · rw [if_pos t1] at h; cases h
    rw [if_neg t1] at h
    by_cases t2 : (nonzero (band (flood r 64 (pop_lowest u).1) LEFT) &&
        nonzero (band (flood r 64 (pop_lowest u).1) RIGHT)) = true
    · rw [if_pos t2] at h; cases h
    rw [if_neg t2] at h
    have hfailk : compFails r (trailing_zeros u) := by
      constructor
      · rintro ⟨⟨a, hTa, hka⟩, ⟨b, hBb, hkb⟩⟩
        apply t1
        have hIa : INNER.testBit a = true :=
          testBit_of_and_eq (by decide : TOP &&& INNER = TOP) hTa
        have hIb : INNER.testBit b = true :=
          testBit_of_and_eq (by decide : BOTTOM &&& INNER = BOTTOM) hBb
        rw [nonzero_band_iff.mpr ⟨a, hclosed a hka, hTa, hIa⟩,
          nonzero_band_iff.mpr ⟨b, hclosed b hkb, hBb, hIb⟩]
        rfl
      · rintro ⟨⟨a, hLa, hka⟩, ⟨b, hRb, hkb⟩⟩
        apply t2
        have hIa : INNER.testBit a = true :=
          testBit_of_and_eq (by decide : LEFT &&& INNER = LEFT) hLa
        have hIb : INNER.testBit b = true :=
          testBit_of_and_eq (by decide : RIGHT &&& INNER = RIGHT) hRb
        rw [nonzero_band_iff.mpr ⟨a, hclosed a hka, hLa, hIa⟩,
          nonzero_band_iff.mpr ⟨b, hclosed b hkb, hRb, hIb⟩]
        rfl
    have hnextsub : ∀ j,
        (band (pop_lowest u).2 (bnot (flood r 64 (pop_lowest u).1))).testBit j = true →
        u.testBit j = true := by
      intro j hj
      rw [testBit_band] at hj
      obtain ⟨hj1, -⟩ := Bool.and_eq_true _ _ |>.mp hj
      obtain ⟨hj1, -⟩ := Bool.and_eq_true _ _ |>.mp hj1
      rw [hsnd, testBit_xor_two_pow] at hj1
      by_cases hjk : trailing_zeros u = j
      · rw [← hjk]; exact hk
      · simpa [hjk] using hj1
    by_cases hni :
        (band (pop_lowest u).2 (bnot (flood r 64 (pop_lowest u).1))).testBit i = true
    · refine ih _ (inv_band _ _) (fun j hj => hsub j (hnextsub j hj)) ?_ h i hni
      have hklt : trailing_zeros u < 64 := testBit_lt_64_of_inv hu hk
      have hss : bitsOf (band (pop_lowest u).2 (bnot (flood r 64 (pop_lowest u).1))) ⊂
          bitsOf u := by
        rw [Finset.ssubset_iff_of_subset]
        · refine ⟨trailing_zeros u, mem_bitsOf.mpr ⟨hklt, hk⟩, ?_⟩
          rw [mem_bitsOf]
          rintro ⟨-, hmem⟩
          rw [testBit_band] at hmem
          obtain ⟨hmem, -⟩ := Bool.and_eq_true _ _ |>.mp hmem
          obtain ⟨hmem, -⟩ := Bool.and_eq_true _ _ |>.mp hmem
          rw [hsnd, testBit_xor_two_pow] at hmem
          simp [hk] at hmem
        · intro j hj
          rw [mem_bitsOf] at hj ⊢
          exact ⟨hj.1, hnextsub j hj.2⟩
      have := Finset.card_lt_card hss
      omega
    · have hIi : INNER.testBit i = true := testBit_INNER_of_inv hu hui
      have hi64 : i < 64 := testBit_INNER_lt hIi
      by_cases hci : (flood r 64 (pop_lowest u).1).testBit i = true
      · exact compFails_of_reach (hsound i hci).2 hfailk
      · exfalso
        have hcontains :
            (flood r 64 (pop_lowest u).1).testBit (trailing_zeros u) = true := by
          apply flood_subset
          rw [hfst, Nat.testBit_two_pow]
          simp
        have hki : trailing_zeros u ≠ i := by
          intro hk'
          rw [hk'] at hcontains
          exact hci hcontains
        have hci' : (flood r 64 (pop_lowest u).1).testBit i = false := by
          revert hci
          cases (flood r 64 (pop_lowest u).1).testBit i <;> simp
        apply hni
        rw [testBit_band, hsnd, testBit_xor_two_pow, testBit_bnot hi64]
        simp [hui, hki, hci', hIi]

/-- **C1.** `check_road` decides edge-to-edge connectivity: for every masked
word it returns `true` exactly when some 4-connected component of the board
contains both a top and a bottom square, or both a left and a right square;
in particular it holds on the all-ones word and fails on the empty word. -/
theorem check_road_correct :
    (∀ d : Nat, check_road (new d) = true ↔ hasRoadSpec (new d)) ∧
    check_road (new 0xffffffffffffffff) = true ∧
    check_road 0 = false := by
  refine ⟨?_, by decide, by decide⟩
  intro d
  have hr : inv (new d) := inv_new d
  have hsub : ∀ i, (band (new d) LEFT_TOP).testBit i = true →
      (new d).testBit i = true := by
    intro i hi
    rw [testBit_band] at hi
    obtain ⟨hi, -⟩ := Bool.and_eq_true _ _ |>.mp hi
    exact (Bool.and_eq_true _ _ |>.mp hi).1
  constructor
  · intro h
    exact check_road_loop_true hr 64 _ (inv_new _) hsub h
  · intro hspec
    by_contra hne
    have hfalse : check_road (new d) = false := by
      revert hne
      cases check_road (new d) <;> simp
    have hcard : (bitsOf (band (new d) LEFT_TOP)).card < 64 := by
      have hsubI : bitsOf (band (new d) LEFT_TOP) ⊆ bitsOf INNER := by
        intro j hj
        rw [mem_bitsOf] at hj ⊢
        refine ⟨hj.1, ?_⟩
        have := hj.2
        rw [testBit_band] at this
        exact (Bool.and_eq_true _ _ |>.mp this).2
      have := Finset.card_le_card hsubI
      have h36 : (bitsOf INNER).card = 36 := by decide
      omega
    have hall := check_road_loop_false hr 64 _ (inv_new _) hsub hcard hfalse
    rcases hspec with ⟨a, b, hTa, hBb, hra, hrb, hab⟩ | ⟨a, b, hLa, hRb, hra, hrb, hab⟩
    · have hLTa : LEFT_TOP.testBit a = true :=
        testBit_of_and_eq (by decide : TOP &&& LEFT_TOP = TOP) hTa
      have hIa : INNER.testBit a = true :=
        testBit_of_and_eq (by decide : TOP &&& INNER = TOP) hTa
      have hmem : (band (new d) LEFT_TOP).testBit a = true := by
        rw [testBit_band, hra, hLTa, hIa]; rfl
      exact (hall a hmem).1 ⟨⟨a, hTa, Relation.ReflTransGen.refl⟩, ⟨b, hBb, hab⟩⟩
    · have hLTa : LEFT_TOP.testBit a = true :=
        testBit_of_and_eq (by decide : LEFT &&& LEFT_TOP = LEFT) hLa
      have hIa : INNER.testBit a = true :=
        testBit_of_and_eq (by decide : LEFT &&& INNER = LEFT) hLa
      have hmem : (band (new d) LEFT_TOP).testBit a = true := by
        rw [testBit_band, hra, hLTa, hIa]; rfl
      exact (hall a hmem).2 ⟨⟨a, hLa, Relation.ReflTransGen.refl⟩, ⟨b, hRb, hab⟩⟩

end Bitboard6

/-! ## Pieces and moves

`Piece` is the six-variant tag of `src/board` (its enum declaration is not
among the provided sources; the variants and operations are used throughout
`stack.rs` and `proof.rs` and described in §3 of the specification). -/

inductive Piece where
  | whiteFlat
  | blackFlat
  | whiteWall
  | blackWall
  | whiteCap
  | blackCap
deriving DecidableEq, Repr

/-- Modelled from the spec: `GameMove` is a compact packed value with two
disjoint shapes, a placement `(piece, square)` and a stack move; the
packing of a stack move is irrelevant to the claims and is abstracted as
its raw bits.  `GameMove::null_move()` is the reserved all-zero stack
encoding, distinct from every generated move. -/
inductive GameMove where
  | placement (piece : Piece) (square : Nat)
  | stackMove (enc : Nat)
deriving DecidableEq, Repr

def GameMove.null_move : GameMove := .stackMove 0

def GameMove.is_stack_move : GameMove → Bool
  | .stackMove _ => true
  | .placement _ _ => false

def GameMove.is_place_move : GameMove → Bool
  | .placement _ _ => true
  | .stackMove _ => false

/-! ## Proof-number search bounds (src/search/proof.rs)

`u32` quantities are represented as `Nat`; `saturating_add` is modelled
exactly (clamp at `u32::MAX`) and default bound formulas wrap at `2 ^ 32`
as the release-mode `u32` arithmetic of the source does. -/

def INFINITY : Nat := 100000000

def U32_MAX : Nat := 2 ^ 32 - 1

/-- `u32::saturating_add`. -/
def satAdd32 (a b : Nat) : Nat := min (a + b) U32_MAX

structure Bounds where
  phi : Nat
  delta : Nat
deriving DecidableEq, Repr

def Bounds.winning : Bounds := ⟨0, INFINITY⟩

def Bounds.losing : Bounds := ⟨INFINITY, 0⟩

def Bounds.infinity : Bounds := ⟨INFINITY, INFINITY⟩

def Bounds.root : Bounds := ⟨INFINITY / 2, INFINITY / 2⟩

structure Child where
  bounds : Bounds
  game_move : GameMove
  zobrist : Nat
  best_child : Nat
deriving DecidableEq, Repr

/-- `Child::new`: `best_child` starts at `usize::MAX`. -/
def Child.new (bounds : Bounds) (game_move : GameMove) (zobrist : Nat) : Child :=
  ⟨bounds, game_move, zobrist, 2 ^ 64 - 1⟩

def Child.phi (c : Child) : Nat := c.bounds.phi

def Child.delta (c : Child) : Nat := c.bounds.delta

/-- The loop body of `compute_bounds`:
`out.phi = min(out.phi, ch.bounds.delta)`;
`out.delta = out.delta.saturating_add(ch.bounds.phi)`. -/
def cbStep (out : Bounds) (ch : Child) : Bounds :=
  ⟨min out.phi ch.bounds.delta, satAdd32 out.delta ch.bounds.phi⟩

/-- `compute_bounds`: fold the loop body over the children starting from
`(INFINITY, 0)`, then clamp `delta` at `INFINITY`. -/
def compute_bounds (children : List Child) : Bounds :=
  let out := children.foldl cbStep ⟨INFINITY, 0⟩
  ⟨out.phi, min out.delta INFINITY⟩

theorem foldr_min_init (l : List Nat) (a y : Nat) :
    l.foldr min (min a y) = min y (l.foldr min a) := by
  induction l with
  | nil => simp [Nat.min_comm]
  | cons x l ih => simp only [List.foldr_cons, ih]; omega

theorem foldr_min_le_init (l : List Nat) (a : Nat) : l.foldr min a ≤ a := by
  induction l with
  | nil => simp
  | cons x l ih => simp only [List.foldr_cons]; omega

theorem compute_bounds_phi_aux (cs : List Child) :
    ∀ b : Bounds, (cs.foldl cbStep b).phi = (cs.map Child.delta).foldr min b.phi := by
  induction cs with
  | nil => intro b; rfl
  | cons c cs ih =>
    intro b
    simp only [List.foldl_cons, List.map_cons, List.foldr_cons, ih]
    show (cs.map Child.delta).foldr min (min b.phi c.bounds.delta) = _
    rw [foldr_min_init]
    rfl

theorem compute_bounds_delta_aux (cs : List Child) :
    ∀ b : Bounds, b.delta ≤ U32_MAX →
      (cs.foldl cbStep b).delta = min (b.delta + (cs.map Child.phi).sum) U32_MAX := by
  induction cs with
  | nil => intro b hb; simp; omega
  | cons c cs ih =>
    intro b hb
    simp only [List.foldl_cons, List.map_cons, List.sum_cons]
    rw [ih (cbStep b c) (by
      show min (b.delta + c.bounds.phi) U32_MAX ≤ U32_MAX
      omega)]
    show min (min (b.delta + c.bounds.phi) U32_MAX + (cs.map Child.phi).sum) U32_MAX = _
    simp only [Child.phi]
    omega

/-- **C6 (amended).** `compute_bounds` returns `phi` equal to the minimum
of `INFINITY` and the children's deltas, and `delta` equal to the saturating
sum of the children's phis clamped at `INFINITY` (`0` on the empty slice),
in exact natural-number arithmetic (hence without unsigned overflow); both
results stay at most `INFINITY`. -/
theorem compute_bounds_spec (children : List Child) :
    (compute_bounds children).phi = (children.map Child.delta).foldr min INFINITY ∧
    (compute_bounds children).delta = min ((children.map Child.phi).sum) INFINITY ∧
    (compute_bounds children).delta ≤ INFINITY ∧
    (compute_bounds children).phi ≤ INFINITY := by
  have hphi : (compute_bounds children).phi =
      (children.map Child.delta).foldr min INFINITY :=
    compute_bounds_phi_aux children ⟨INFINITY, 0⟩
  have hdelta : (compute_bounds children).delta =
      min ((children.map Child.phi).sum) INFINITY := by
    show min ((children.foldl cbStep ⟨INFINITY, 0⟩).delta) INFINITY = _
    rw [compute_bounds_delta_aux children ⟨INFINITY, 0⟩
      (by show (0 : Nat) ≤ U32_MAX; omega)]
    show min (min (0 + (children.map Child.phi).sum) U32_MAX) INFINITY = _
    have : INFINITY ≤ U32_MAX := by unfold INFINITY U32_MAX; omega
    omega
  refine ⟨hphi, hdelta, ?_, ?_⟩
  · rw [hdelta]; exact Nat.min_le_right _ _
  · rw [hphi]; exact foldr_min_le_init _ _

/-- **C6 counterexample.** On a slice whose single child has delta
`2·INFINITY`, `compute_bounds` returns phi `INFINITY`, not the minimum of
the children's delta values (which is `200000000`). -/
theorem compute_bounds_cex :
    (compute_bounds [Child.new ⟨0, 200000000⟩ GameMove.null_move 0]).phi = 100000000 ∧
    [Child.new ⟨0, 200000000⟩ GameMove.null_move 0].map Child.delta = [200000000] ∧
    (100000000 : Nat) ≠ 200000000 := by
  refine ⟨by decide, rfl, by omega⟩

/-- The loop body of `select_child`: on `child.delta < best.delta` the best
index, best bounds and second-best bounds rotate; otherwise a smaller delta
only displaces the second-best. -/
def selUpdate (idx cbi : Nat) (best second : Bounds) (child : Child) :
    Nat × Bounds × Bounds :=
  if child.bounds.delta < best.delta then (idx, child.bounds, best)
  else if child.bounds.delta < second.delta then (cbi, best, child.bounds)
  else (cbi, best, second)

/-- The scan of `select_child` over `children.iter().enumerate().skip(1)`:
after each update the current child's `phi == INFINITY` forces an early
return of the updated best index and second-best bounds. -/
def select_child_go : List Child → Nat → Nat → Bounds → Bounds → Nat × Bounds
  | [], _, cbi, _, second => (cbi, second)
  | child :: rest, idx, cbi, best, second =>
    let u := selUpdate idx cbi best second child
    if child.bounds.phi = INFINITY then (u.1, u.2.2)
    else select_child_go rest (idx + 1) u.1 u.2.1 u.2.2

/-- `TinueSearch::select_child`: `best` starts from `children[0]`,
`second_best` from `Bounds::infinity()` (the source panics on an empty
slice; the empty case is given a dummy value and excluded from every
statement). -/
def select_child : List Child → Nat × Bounds
  | [] => (0, Bounds.infinity)
  | c :: rest => select_child_go rest 1 0 c.bounds Bounds.infinity

/-- Ghost variant of the scan without the early `phi == INFINITY` return,
additionally reporting the final best bounds. -/
def selSpec : List Child → Nat → Nat → Bounds → Bounds → Nat × Bounds × Bounds
  | [], _, cbi, best, second => (cbi, best, second)
  | child :: rest, idx, cbi, best, second =>
    let u := selUpdate idx cbi best second child
    selSpec rest (idx + 1) u.1 u.2.1 u.2.2

theorem select_go_eq_selSpec :
    ∀ (cs : List Child) (idx cbi : Nat) (best second : Bounds),
      (∀ c ∈ cs, c.bounds.phi ≠ INFINITY) →
      select_child_go cs idx cbi best second =
        ((selSpec cs idx cbi best second).1, (selSpec cs idx cbi best second).2.2) := by
  intro cs
  induction cs with
  | nil => intro idx cbi best second _; rfl
  | cons c rest ih =>
    intro idx cbi best second h
    simp only [select_child_go, selSpec]
    rw [if_neg (h c (List.mem_cons_self c rest))]
    exact ih _ _ _ _ (fun x hx => h x (List.mem_cons_of_mem c hx))

/-- **C5 counterexample.** With children `[(1,10), (INFINITY,100), (1,1)]`
the scan returns index `0` and second bounds `(INFINITY,100)` because the
early return fires at the second child, although the child at index `2`
has the strictly smallest delta (`1 < 10`) and the second-smallest delta
over the whole slice is `10`, not `100`. -/
theorem select_child_cex :
    (select_child [Child.new ⟨1, 10⟩ GameMove.null_move 0,
        Child.new ⟨INFINITY, 100⟩ GameMove.null_move 0,
        Child.new ⟨1, 1⟩ GameMove.null_move 0]).1 = 0 ∧
    (Child.new ⟨1, 1⟩ GameMove.null_move 0).bounds.delta <
      (Child.new ⟨1, 10⟩ GameMove.null_move 0).bounds.delta ∧
    (select_child [Child.new ⟨1, 10⟩ GameMove.null_move 0,
        Child.new ⟨INFINITY, 100⟩ GameMove.null_move 0,
        Child.new ⟨1, 1⟩ GameMove.null_move 0]).2.delta = 100 ∧
    (100 : Nat) ≠ 10 := by
  refine ⟨by decide, by decide, by decide, by omega⟩

theorem foldr_min_lower (l : List Nat) {b s : Nat} (h : b ≤ s) :
    l.foldr min b = min b (l.foldr min s) := by
  have := foldr_min_init l s b
  rwa [Nat.min_eq_right h] at this

theorem foldr_min_absorb (l : List Nat) {s c : Nat} (h : s ≤ c) :
    min c (l.foldr min s) = l.foldr min s := by
  have := foldr_min_le_init l s
  omega

/-- Invariant of the early-return-free scan: it returns the position,
bounds and delta-minimum of a best element of the virtual list headed by
the incoming best, and the second bounds hold the minimum of the incoming
second delta and the deltas of the remaining elements. -/
theorem selSpec_main :
    ∀ (cs : List Child) (idx cbi : Nat) (best second : Bounds),
      best.delta ≤ second.delta →
      ∃ p, p < (best.delta :: cs.map Child.delta).length ∧
        ((p = 0 ∧ (selSpec cs idx cbi best second).1 = cbi ∧
            (selSpec cs idx cbi best second).2.1 = best) ∨
          (∃ (k : Nat) (hk : k < cs.length), p = k + 1 ∧
            (selSpec cs idx cbi best second).1 = idx + k ∧
            (selSpec cs idx cbi best second).2.1 = (cs.get ⟨k, hk⟩).bounds)) ∧
        (∀ x ∈ best.delta :: cs.map Child.delta,
          (selSpec cs idx cbi best second).2.1.delta ≤ x) ∧
        (selSpec cs idx cbi best second).2.2.delta =
          ((best.delta :: cs.map Child.delta).eraseIdx p).foldr min second.delta := by
  intro cs
  induction cs with
  | nil =>
    intro idx cbi best second hinv
    refine ⟨0, by simp, Or.inl ⟨rfl, rfl, rfl⟩, ?_, rfl⟩
    intro x hx
    rcases List.mem_cons.mp hx with rfl | hx
    · exact le_refl _
    · simp at hx
  | cons c rest ih =>
    intro idx cbi best second hinv
    by_cases h1 : c.bounds.delta < best.delta
    · have hstep : selSpec (c :: rest) idx cbi best second
          = selSpec rest (idx + 1) idx c.bounds best := by
        simp only [selSpec, selUpdate, if_pos h1]
      obtain ⟨p', hp', hcase, hmin, hS⟩ := ih (idx + 1) idx c.bounds best (le_of_lt h1)
      rw [hstep]
      refine ⟨p' + 1, ?_, ?_, ?_, ?_⟩
      · simp only [List.map_cons, List.length_cons] at hp' ⊢
        omega
      · rcases hcase with ⟨hp0, hi, hB⟩ | ⟨k, hk, hpk, hi, hB⟩
        · refine Or.inr ⟨0, by simp, by omega, ?_, hB⟩
          rw [Nat.add_zero]
          exact hi
        · refine Or.inr ⟨k + 1, by simp only [List.length_cons]; omega, by omega, ?_, hB⟩
          rw [hi]
          omega
      · intro x hx
        have hheadB := hmin c.bounds.delta (List.mem_cons_self _ _)
        rcases List.mem_cons.mp hx with rfl | hx
        · omega
        · simp only [List.map_cons] at hx
          rcases List.mem_cons.mp hx with rfl | hx
          · exact hheadB
          · exact hmin x (List.mem_cons_of_mem _ hx)
      · rw [hS]
        match p' with
        | 0 =>
          simp only [List.map_cons, List.eraseIdx_cons_succ, List.eraseIdx_cons_zero,
            List.foldr_cons]
          exact foldr_min_lower _ hinv
        | k' + 1 =>
          simp only [List.map_cons, List.eraseIdx_cons_succ, List.foldr_cons, Child.delta]
          rw [foldr_min_lower _ hinv]
          omega
    · by_cases h2 : c.bounds.delta < second.delta
      · have hstep : selSpec (c :: rest) idx cbi best second
            = selSpec rest (idx + 1) cbi best c.bounds := by
          simp only [selSpec, selUpdate, if_neg h1, if_pos h2]
        obtain ⟨p', hp', hcase, hmin, hS⟩ := ih (idx + 1) cbi best c.bounds (by omega)
        rw [hstep]
        have hheadB := hmin best.delta (List.mem_cons_self _ _)
        rcases hcase with ⟨hp0, hi, hB⟩ | ⟨k, hk, hpk, hi, hB⟩
        · refine ⟨0, by simp, Or.inl ⟨rfl, hi, hB⟩, ?_, ?_⟩
          · intro x hx
            rcases List.mem_cons.mp hx with rfl | hx
            · exact hheadB
            · simp only [List.map_cons] at hx
              rcases List.mem_cons.mp hx with rfl | hx
              · simp only [Child.delta]
                omega
              · exact hmin x (List.mem_cons_of_mem _ hx)
          · subst hp0
            rw [hS]
            simp only [List.map_cons, List.eraseIdx_cons_zero, List.foldr_cons,
              Child.delta]
            exact foldr_min_lower _ (le_of_lt h2)
        · refine ⟨p' + 1, ?_, ?_, ?_, ?_⟩
          · simp only [List.map_cons, List.length_cons] at hp' ⊢
            omega
          · refine Or.inr ⟨k + 1, by simp only [List.length_cons]; omega, by omega, ?_, hB⟩
            rw [hi]
            omega
          · intro x hx
            rcases List.mem_cons.mp hx with rfl | hx
            · exact hheadB
            · simp only [List.map_cons] at hx
              rcases List.mem_cons.mp hx with rfl | hx
              · simp only [Child.delta]
                omega
              · exact hmin x (List.mem_cons_of_mem _ hx)
          · subst hpk
            rw [hS]
            simp only [List.map_cons, List.eraseIdx_cons_succ, List.foldr_cons,
              Child.delta]
            rw [foldr_min_lower _ (le_of_lt h2)]
      · have hstep : selSpec (c :: rest) idx cbi best second
            = selSpec rest (idx + 1) cbi best second := by
          simp only [selSpec, selUpdate, if_neg h1, if_neg h2]
        obtain ⟨p', hp', hcase, hmin, hS⟩ := ih (idx + 1) cbi best second hinv
        rw [hstep]
        have hheadB := hmin best.delta (List.mem_cons_self _ _)
        rcases hcase with ⟨hp0, hi, hB⟩ | ⟨k, hk, hpk, hi, hB⟩
        · refine ⟨0, by simp, Or.inl ⟨rfl, hi, hB⟩, ?_, ?_⟩
          · intro x hx
            rcases List.mem_cons.mp hx with rfl | hx
            · exact hheadB
            · simp only [List.map_cons] at hx
              rcases List.mem_cons.mp hx with rfl | hx
              · simp only [Child.delta]
                omega
              · exact hmin x (List.mem_cons_of_mem _ hx)
          · subst hp0
            rw [hS]
            simp only [List.map_cons, List.eraseIdx_cons_zero, List.foldr_cons,
              Child.delta]
            rw [foldr_min_absorb _ (by omega)]
        · refine ⟨p' + 1, ?_, ?_, ?_, ?_⟩
          · simp only [List.map_cons, List.length_cons] at hp' ⊢
            omega
          · refine Or.inr ⟨k + 1, by simp only [List.length_cons]; omega, by omega, ?_, hB⟩
            rw [hi]
            omega
          · intro x hx
            rcases List.mem_cons.mp hx with rfl | hx
            · exact hheadB
            · simp only [List.map_cons] at hx
              rcases List.mem_cons.mp hx with rfl | hx
              · simp only [Child.delta]
                omega
              · exact hmin x (List.mem_cons_of_mem _ hx)
          · subst hpk
            rw [hS]
            simp only [List.map_cons, List.eraseIdx_cons_succ, List.foldr_cons,
              Child.delta]
            have hfle := foldr_min_le_init
              ((rest.map Child.delta).eraseIdx k) second.delta
            omega

/-- **C5 (amended).** When no child after the first has `phi = INFINITY`
(the early return never fires) and the first child's delta is at most
`INFINITY`, `select_child` returns the index of a child whose delta is
minimal over the whole slice, together with a `Bounds` whose delta is the
minimum of `INFINITY` and the deltas of the remaining children (the
second-smallest delta when all deltas are bounded by `INFINITY`, and
`Bounds::infinity()` when there is only one child). -/
theorem select_child_spec (c0 : Child) (rest : List Child)
    (hphi : ∀ c ∈ rest, c.bounds.phi ≠ INFINITY)
    (hd0 : c0.bounds.delta ≤ INFINITY) :
    ∃ cb : Child,
      (c0 :: rest).get? (select_child (c0 :: rest)).1 = some cb ∧
      (∀ c ∈ c0 :: rest, cb.bounds.delta ≤ c.bounds.delta) ∧
      (select_child (c0 :: rest)).2.delta =
        (((c0 :: rest).map Child.delta).eraseIdx (select_child (c0 :: rest)).1).foldr
          min INFINITY ∧
      (rest = [] → (select_child (c0 :: rest)).2 = Bounds.infinity) := by
  have hlink : select_child (c0 :: rest) =
      ((selSpec rest 1 0 c0.bounds Bounds.infinity).1,
        (selSpec rest 1 0 c0.bounds Bounds.infinity).2.2) :=
    select_go_eq_selSpec rest 1 0 c0.bounds Bounds.infinity hphi
  obtain ⟨p, hp, hcase, hmin, hS⟩ := selSpec_main rest 1 0 c0.bounds Bounds.infinity hd0
  rcases hcase with ⟨hp0, hi, hB⟩ | ⟨k, hk, hpk, hi, hB⟩
  · refine ⟨c0, ?_, ?_, ?_, ?_⟩
    · rw [hlink]
      show (c0 :: rest).get? (selSpec rest 1 0 c0.bounds Bounds.infinity).1 = _
      rw [hi]
      rfl
    · intro c hc
      rcases List.mem_cons.mp hc with rfl | hc
      · exact le_refl _
      · have := hmin (Child.delta c)
          (List.mem_cons_of_mem _ (List.mem_map_of_mem _ hc))
        rw [hB] at this
        exact this
    · subst hp0
      rw [hlink]
      show (selSpec rest 1 0 c0.bounds Bounds.infinity).2.2.delta = _
      rw [hi, hS]
      simp only [List.map_cons, List.eraseIdx_cons_zero]
      rfl
    · intro hrest
      subst hrest
      rfl
  · refine ⟨rest.get ⟨k, hk⟩, ?_, ?_, ?_, ?_⟩
    · rw [hlink]
      show (c0 :: rest).get? (selSpec rest 1 0 c0.bounds Bounds.infinity).1 = _
      rw [hi, Nat.add_comm 1 k]
      show rest.get? k = _
      exact List.get?_eq_get hk
    · intro c hc
      rcases List.mem_cons.mp hc with rfl | hc
      · have := hmin c.bounds.delta (List.mem_cons_self _ _)
        rw [hB] at this
        exact this
      · have := hmin (Child.delta c)
          (List.mem_cons_of_mem _ (List.mem_map_of_mem _ hc))
        rw [hB] at this
        exact this
    · subst hpk
      rw [hlink]
      show (selSpec rest 1 0 c0.bounds Bounds.infinity).2.2.delta = _
      rw [hi, hS, Nat.add_comm 1 k]
      simp only [List.map_cons, List.eraseIdx_cons_succ, List.foldr_cons]
      rfl
    · intro hrest
      subst hrest
      simp at hk

/-- Witness for C5: a concrete three-child slice with deltas `[5, 3, 7]`;
the theorem's hypotheses hold and it identifies the child at index 1. -/
theorem select_child_spec_w :
    ∃ cb : Child,
      ([Child.new ⟨2, 5⟩ GameMove.null_move 0, Child.new ⟨3, 3⟩ GameMove.null_move 1,
          Child.new ⟨4, 7⟩ GameMove.null_move 2].get?
        (select_child [Child.new ⟨2, 5⟩ GameMove.null_move 0,
          Child.new ⟨3, 3⟩ GameMove.null_move 1,
          Child.new ⟨4, 7⟩ GameMove.null_move 2]).1 = some cb) ∧
      (∀ c ∈ [Child.new ⟨2, 5⟩ GameMove.null_move 0,
          Child.new ⟨3, 3⟩ GameMove.null_move 1,
          Child.new ⟨4, 7⟩ GameMove.null_move 2],
        cb.bounds.delta ≤ c.bounds.delta) ∧
      (select_child [Child.new ⟨2, 5⟩ GameMove.null_move 0,
          Child.new ⟨3, 3⟩ GameMove.null_move 1,
          Child.new ⟨4, 7⟩ GameMove.null_move 2]).2.delta =
        (([Child.new ⟨2, 5⟩ GameMove.null_move 0, Child.new ⟨3, 3⟩ GameMove.null_move 1,
            Child.new ⟨4, 7⟩ GameMove.null_move 2].map Child.delta).eraseIdx
          (select_child [Child.new ⟨2, 5⟩ GameMove.null_move 0,
            Child.new ⟨3, 3⟩ GameMove.null_move 1,
            Child.new ⟨4, 7⟩ GameMove.null_move 2]).1).foldr min INFINITY ∧
      ([Child.new ⟨3, 3⟩ GameMove.null_move 1, Child.new ⟨4, 7⟩ GameMove.null_move 2] =
          ([] : List Child) →
        (select_child [Child.new ⟨2, 5⟩ GameMove.null_move 0,
          Child.new ⟨3, 3⟩ GameMove.null_move 1,
          Child.new ⟨4, 7⟩ GameMove.null_move 2]).2 = Bounds.infinity) :=
  select_child_spec (Child.new ⟨2, 5⟩ GameMove.null_move 0)
    [Child.new ⟨3, 3⟩ GameMove.null_move 1, Child.new ⟨4, 7⟩ GameMove.null_move 2]
    (by decide) (by decide)

/-! ## The tinue search state machine (src/search/proof.rs)

`TinueSearch` drives board operations (`do_move`, `reverse_move`, `hash`,
`side_to_move`, `flat_game`) and move generation (`can_make_road`,
`get_tak_threats`, `generate_aggressive_place_moves`,
`generate_all_place_moves`, `find_placement_road`) whose bodies live in
modules that are not among the provided sources.  They are parameters of
the embedding (`BoardOps`); laws the specification imposes on them (§5:
`do_move`/`reverse_move` round-trip; generated moves are real moves, never
the null sentinel) are explicit hypotheses of the theorems that need them.
The two hash maps and `Vec` stacks are embedded as lists (most recent
entry first); `u32` arithmetic wraps at `2 ^ 32` as in a release build.
The recursive `mid`/`loop` pair is embedded with an explicit fuel; `none`
signals fuel exhaustion or a panicking path (failed `assert!`,
out-of-bounds index), so every `some` result is a terminating,
non-panicking run of the source. -/

def Piece.is_blocker : Piece → Bool
  | .whiteWall | .blackWall | .whiteCap | .blackCap => true
  | .whiteFlat | .blackFlat => false

def Piece.swap_color : Piece → Piece
  | .whiteFlat => .blackFlat
  | .blackFlat => .whiteFlat
  | .whiteWall => .blackWall
  | .blackWall => .whiteWall
  | .whiteCap => .blackCap
  | .blackCap => .whiteCap

/-- `m.place_piece()`: the piece of a placement (on a stack move the source
reads packed bits that never reach this accessor on the claimed paths). -/
def GameMove.place_piece : GameMove → Piece
  | .placement p _ => p
  | .stackMove _ => .whiteFlat

/-- `m.src_index()` of a placement move. -/
def GameMove.src_index : GameMove → Nat
  | .placement _ sq => sq
  | .stackMove _ => 0

def GameMove.from_placement (p : Piece) (sq : Nat) : GameMove := .placement p sq

/-- `u32` wrapping addition and multiplication. -/
def u32add (a b : Nat) : Nat := (a + b) % 2 ^ 32

def u32mul (a b : Nat) : Nat := a * b % 2 ^ 32

/-- `u32` wrapping subtraction. -/
def u32sub (a b : Nat) : Nat := (a % 2 ^ 32 + (2 ^ 32 - b % 2 ^ 32)) % 2 ^ 32

inductive AttackerOutcome where
  | HasRoad (m : GameMove)
  | TakThreats (moves : List GameMove)
  | NoTakThreats
deriving DecidableEq, Repr

inductive DefenderOutcome where
  | CanWin (m : GameMove)
  | Defenses (moves : List GameMove)
deriving DecidableEq, Repr

structure TopMoves where
  moves : List GameMove
  size : Nat
deriving DecidableEq, Repr

def TopMoves.MAX_SIZE : Nat := 3

def TopMoves.new : TopMoves :=
  ⟨[GameMove.null_move, GameMove.null_move, GameMove.null_move], 0⟩

def TopMoves.get_best (t : TopMoves) : List GameMove := t.moves.take t.size

def TopMoves.add_move (t : TopMoves) (game_move : GameMove) : TopMoves :=
  if t.size = TopMoves.MAX_SIZE then t
  else if t.moves.contains game_move then t
  else ⟨t.moves.set t.size game_move, t.size + 1⟩

/-- The board and move-generation interface of the search; the bodies of
these functions are outside the provided sources.  `can_make_road` returns
the road move (if any) together with the stack moves it generates into its
buffer; `find_placement_road` condenses
`find_placement_road(enemy, enemy_road_pieces, empty)` into a function of
the board, and the place-move generators return the extended buffer. -/
structure BoardOps (B R : Type) where
  do_move : B → GameMove → B × R
  reverse_move : B → R → B
  hash : B → Nat
  side_to_move : B → Bool
  flat_game : B → Bool
  can_make_road : B → Option (List GameMove) → Option GameMove × List GameMove
  get_tak_threats : B → List GameMove → Option (List GameMove) → List GameMove
  generate_aggressive_place_moves : B → List GameMove → List GameMove
  generate_all_place_moves : B → List GameMove → List GameMove
  find_placement_road : B → Option GameMove

/-- The mutable fields of `TinueSearch` (hash maps and `Vec`s as lists,
most recent first). -/
structure SearchState (B R : Type) where
  board : B
  bounds_table : List (Nat × Bounds)
  rev_moves : List R
  zobrist_hist : List Nat
  attacker : Bool
  nodes : Nat
  top_moves : List TopMoves
  tinue_attempts : List (Nat × AttackerOutcome)
  replies : List (Nat × GameMove)
  tinue_cache_hits : Nat
  tinue_cache_misses : Nat
  quiet : Bool
  max_nodes : Nat

/-- `HashMap::get` on the association-list embedding. -/
def tableLookup {α : Type} : List (Nat × α) → Nat → Option α
  | [], _ => none
  | (k, v) :: rest, key => if k = key then some v else tableLookup rest key

/-- `HashMap::entry(k).or_insert(v)`: the stored value and the updated map. -/
def entryOrInsert {α : Type} (t : List (Nat × α)) (k : Nat) (v : α) :
    α × List (Nat × α) :=
  match tableLookup t k with
  | some w => (w, t)
  | none => (v, (k, v) :: t)

theorem tableLookup_mem {α : Type} :
    ∀ {t : List (Nat × α)} {k : Nat} {v : α},
      tableLookup t k = some v → (k, v) ∈ t := by
  intro t
  induction t with
  | nil => intro k v h; cases h
  | cons p rest ih =>
    intro k v h
    match p with
    | (k', v') =>
      unfold tableLookup at h
      by_cases hk : k' = k
      · rw [if_pos hk] at h
        cases h
        subst hk
        exact List.mem_cons_self _ _
      · rw [if_neg hk] at h
        exact List.mem_cons_of_mem _ (ih h)

/-- `Child::update_bounds`: store the bounds on the child and in the table. -/
def Child.update_bounds {B R : Type} (c : Child) (bounds : Bounds)
    (st : SearchState B R) : Child × SearchState B R :=
  (⟨bounds, c.game_move, c.zobrist, c.best_child⟩,
    { st with bounds_table := (c.zobrist, bounds) :: st.bounds_table })

/-- `Child::update_best_child`: record the best child index and the reply. -/
def Child.update_best_child {B R : Type} (c : Child) (best_child : Nat)
    (game_move : GameMove) (st : SearchState B R) : Child × SearchState B R :=
  (⟨c.bounds, c.game_move, c.zobrist, best_child⟩,
    { st with replies := (c.zobrist, game_move) :: st.replies })

/-- `TinueSearch::undo_move`: pop a reverse move if present, reverse it,
and only then pop the zobrist history (the `?` early return skips both
pops when `rev_moves` is empty). -/
def undo_move {B R : Type} (O : BoardOps B R) (st : SearchState B R) :
    SearchState B R :=
  match st.rev_moves with
  | [] => st
  | m :: rest =>
    { st with
      board := O.reverse_move st.board m
      rev_moves := rest
      zobrist_hist := st.zobrist_hist.tail }

/-- `TinueSearch::init_pns`: apply the move, read or install the default
bounds for the child position, undo the move, and drop the child when the
current node is the attacker and the child hash repeats. -/
def init_pns {B R : Type} (O : BoardOps B R) (st : SearchState B R)
    (game_move : GameMove) (depth : Nat) : Option Child × SearchState B R :=
  let side_to_move := O.side_to_move st.board
  let attacker := side_to_move == st.attacker
  let moved := O.do_move st.board game_move
  let hash := O.hash moved.1
  let default_bounds : Bounds :=
    if attacker then ⟨1, u32add 30 (u32mul depth depth)⟩
    else if game_move.is_stack_move then ⟨u32add 10 (u32mul depth depth), 1⟩
    else ⟨u32add 20 (u32mul depth depth), 1⟩
  let looked := entryOrInsert st.bounds_table hash default_bounds
  let child := Child.new looked.1 game_move hash
  let st :=
    { st with
      board := O.reverse_move moved.1 moved.2
      bounds_table := looked.2 }
  (if attacker && st.zobrist_hist.contains hash then none else some child, st)

/-- The stateful `moves.into_iter().filter_map(|m| self.init_pns(m, depth as
u32)).collect()` of `mid`. -/
def init_children {B R : Type} (O : BoardOps B R) :
    List GameMove → Nat → SearchState B R → List Child × SearchState B R
  | [], _, st => ([], st)
  | m :: ms, depth32, st =>
    match init_pns O st m depth32 with
    | (none, st) => init_children O ms depth32 st
    | (some c, st) =>
      let rest := init_children O ms depth32 st
      (c :: rest.1, rest.2)

/-- `TinueSearch::tinue_evaluate`; `none` is a panicking `top_moves` index. -/
def tinue_evaluate {B R : Type} (O : BoardOps B R) (st : SearchState B R)
    (depth : Nat) : Option (AttackerOutcome × SearchState B R) :=
  match st.top_moves.get? depth with
  | none => none
  | some tm =>
    let road := O.can_make_road st.board (some tm.get_best)
    match road.1 with
    | some m =>
      some (.HasRoad m,
        { st with top_moves := st.top_moves.set depth (tm.add_move m) })
    | none =>
      let moves := O.generate_aggressive_place_moves st.board road.2
      match st.top_moves.get? (depth + 2) with
      | none => none
      | some tm2 =>
        let tak_threats := O.get_tak_threats st.board moves (some tm2.get_best)
        if tak_threats.isEmpty then some (.NoTakThreats, st)
        else
          some (.TakThreats tak_threats,
            { st with top_moves :=
              st.top_moves.set (depth + 2) (tak_threats.foldl TopMoves.add_move tm2) })

/-- `TinueSearch::defender_responses`; `none` is the failed
`assert!(moves.len() > 0)`. -/
def defender_responses {B R : Type} (O : BoardOps B R) (board : B)
    (hint : Option (List GameMove)) : Option DefenderOutcome :=
  let road := O.can_make_road board hint
  match road.1 with
  | some m => some (.CanWin m)
  | none =>
    let placement := O.find_placement_road board
    if road.2.length = 0 then none
    else
      let moves := O.generate_all_place_moves board road.2
      let moves := moves.filter fun m => !m.is_place_move || m.place_piece.is_blocker
      let moves :=
        match placement with
        | some attack =>
          moves ++ [GameMove.from_placement attack.place_piece.swap_color
            attack.src_index]
        | none => moves
      some (.Defenses moves)

/-- The child-move computation of `mid` (its `let moves = if attacker {...}
else {...}` with the embedded early returns): `Sum.inl eval` is an early
exit storing `eval`, `Sum.inr moves` continues into expansion, `none` is a
panic.  An attacker node consults the `tinue_attempts` cache (counting the
hit) or runs `tinue_evaluate` and stores its outcome (counting the miss);
a defender node runs `defender_responses` with the `top_moves` hint and on
`CanWin` records the move in `top_moves[depth]`. -/
def mid_moves {B R : Type} (O : BoardOps B R) (depth : Nat) (st : SearchState B R)
    (attacker : Bool) : Option (Sum Bounds (List GameMove) × SearchState B R) :=
  if attacker then
    let hash := O.hash st.board
    let cachedRes : Option (AttackerOutcome × SearchState B R) :=
      match tableLookup st.tinue_attempts hash with
      | some cached_val =>
        some (cached_val, { st with tinue_cache_hits := st.tinue_cache_hits + 1 })
      | none =>
        let st := { st with tinue_cache_misses := st.tinue_cache_misses + 1 }
        match tinue_evaluate O st depth with
        | none => none
        | some res =>
          some (res.1,
            { res.2 with tinue_attempts := (hash, res.1) :: res.2.tinue_attempts })
    match cachedRes with
    | none => none
    | some (.HasRoad _, st) => some (Sum.inl Bounds.winning, st)
    | some (.NoTakThreats, st) => some (Sum.inl Bounds.losing, st)
    | some (.TakThreats vec, st) => some (Sum.inr vec, st)
  else
    match defender_responses O st.board
        ((st.top_moves.get? depth).map TopMoves.get_best) with
    | none => none
    | some (.CanWin m) =>
      match st.top_moves.get? depth with
      | none => none
      | some tm =>
        some (Sum.inl Bounds.winning,
          { st with top_moves := st.top_moves.set depth (tm.add_move m) })
    | some (.Defenses moves) => some (Sum.inr moves, st)

mutual

/-- `TinueSearch::mid` with explicit fuel.  The body follows the source
line by line: count the node and abort over budget (before any move is
made); apply the child's move unless it is the root's null move; push the
zobrist history; `assert_eq!(child.zobrist, hash)`; terminal flat games
score immediately; an attacker node consults the `tinue_attempts` cache or
runs `tinue_evaluate`, a defender node runs `defender_responses`; early
outcomes store their bounds and unwind through `undo_move`; otherwise the
children are initialised through `init_pns` and the search enters the
expansion loop.  (The debug printing on the quiet flag has no state
effect and is omitted.) -/
def mid {B R : Type} (O : BoardOps B R) :
    Nat → Child → Nat → SearchState B R → Option (Child × SearchState B R)
  | 0, _, _, _ => none
  | fuel + 1, child, depth, st =>
    let st := { st with nodes := st.nodes + 1 }
    if st.nodes > st.max_nodes then some (child, st)
    else
      let st :=
        if child.game_move ≠ GameMove.null_move then
          let moved := O.do_move st.board child.game_move
          { st with board := moved.1, rev_moves := moved.2 :: st.rev_moves }
        else st
      let st := { st with zobrist_hist := O.hash st.board :: st.zobrist_hist }
      if child.zobrist ≠ O.hash st.board then none
      else
        let attacker := O.side_to_move st.board == st.attacker
        if O.flat_game st.board then
          let eval := if attacker then Bounds.losing else Bounds.winning
          let upd := child.update_bounds eval st
          some (upd.1, undo_move O upd.2)
        else
          match mid_moves O depth st attacker with
          | none => none
          | some (Sum.inl eval, st) =>
            let upd := child.update_bounds eval st
            some (upd.1, undo_move O upd.2)
          | some (Sum.inr moves, st) =>
            if moves.isEmpty then none
            else
              let inited := init_children O moves (depth % 2 ^ 32) st
              midLoop O fuel child depth inited.1 inited.2
termination_by structural fuel => fuel

/-- The `loop` of `mid`: compute the threshold bounds, exit (storing the
limit and unwinding) once the child's phi or delta falls under it,
otherwise select the best child, record it in `replies`, push its new
target bounds (`u32` arithmetic) and recurse into `mid`, writing the
child's updated record back into the vector. -/
def midLoop {B R : Type} (O : BoardOps B R) :
    Nat → Child → Nat → List Child → SearchState B R →
      Option (Child × SearchState B R)
  | 0, _, _, _, _ => none
  | fuel + 1, child, depth, child_pns, st =>
    let limit := compute_bounds child_pns
    if child.phi ≤ limit.phi ∨ child.delta ≤ limit.delta then
      let upd := child.update_bounds limit st
      some (upd.1, undo_move O upd.2)
    else
      match child_pns with
      | [] => none
      | c0 :: rest =>
        let sel := select_child (c0 :: rest)
        match (c0 :: rest).get? sel.1 with
        | none => none
        | some best_child =>
          let updc := child.update_best_child sel.1 best_child.game_move st
          let updated_bounds : Bounds :=
            ⟨u32sub (u32add updc.1.delta best_child.phi) limit.delta,
              min updc.1.phi (u32add sel.2.delta 1)⟩
          let updb := best_child.update_bounds updated_bounds updc.2
          match mid O fuel updb.1 (depth + 1) updb.2 with
          | none => none
          | some res =>
            midLoop O fuel updc.1 depth ((c0 :: rest).set sel.1 res.1) res.2
termination_by structural fuel => fuel

end

/-- The frame of a search state: the fields claim C3 is about. -/
def frameOf {B R : Type} (st : SearchState B R) : B × List R × List Nat :=
  (st.board, st.rev_moves, st.zobrist_hist)

/-- All cached `TakThreats` lists are free of the null sentinel (they were
produced by the move generator). -/
def no_null_attempts (l : List (Nat × AttackerOutcome)) : Prop :=
  ∀ h ms, (h, AttackerOutcome.TakThreats ms) ∈ l → GameMove.null_move ∉ ms

/-- The laws §5 of the specification imposes on the board operations:
`reverse_move` inverts `do_move`, and the generators only produce real
moves (never the reserved null sentinel). -/
structure MoveLaws {B R : Type} (O : BoardOps B R) : Prop where
  rev_do : ∀ (b : B) (m : GameMove),
    O.reverse_move (O.do_move b m).1 (O.do_move b m).2 = b
  road_moves : ∀ b hint, GameMove.null_move ∉ (O.can_make_road b hint).2
  tak_threats : ∀ b moves hint, GameMove.null_move ∉ O.get_tak_threats b moves hint
  place_moves : ∀ b moves, GameMove.null_move ∉ moves →
    GameMove.null_move ∉ O.generate_all_place_moves b moves

theorem frameOf_board {B R : Type} {s t : SearchState B R}
    (h : frameOf s = frameOf t) : s.board = t.board := congrArg Prod.fst h

theorem frameOf_rev {B R : Type} {s t : SearchState B R}
    (h : frameOf s = frameOf t) : s.rev_moves = t.rev_moves :=
  congrArg (fun p => p.2.1) h

theorem frameOf_zob {B R : Type} {s t : SearchState B R}
    (h : frameOf s = frameOf t) : s.zobrist_hist = t.zobrist_hist :=
  congrArg (fun p => p.2.2) h

theorem frameOf_eq {B R : Type} {s t : SearchState B R} (h1 : s.board = t.board)
    (h2 : s.rev_moves = t.rev_moves) (h3 : s.zobrist_hist = t.zobrist_hist) :
    frameOf s = frameOf t := by
  unfold frameOf
  rw [h1, h2, h3]

theorem undo_move_frame {B R : Type} (O : BoardOps B R) {s t : SearchState B R}
    (h : frameOf s = frameOf t) :
    frameOf (undo_move O s) = frameOf (undo_move O t) := by
  have hb := frameOf_board h
  have hr := frameOf_rev h
  have hz := frameOf_zob h
  unfold undo_move
  rw [hr]
  cases t.rev_moves with
  | nil => exact h
  | cons m rest => exact frameOf_eq (by rw [hb]) rfl (by rw [hz])

/-- Unwinding a state just after a (non-root) `do_move`-and-push restores
the pre-move frame. -/
theorem frame_undo_push_move {B R : Type} (O : BoardOps B R)
    (hrev : ∀ (b : B) (m : GameMove),
      O.reverse_move (O.do_move b m).1 (O.do_move b m).2 = b)
    (st s : SearchState B R) (m : GameMove)
    (hs : frameOf s =
      ((O.do_move st.board m).1, (O.do_move st.board m).2 :: st.rev_moves,
        O.hash (O.do_move st.board m).1 :: st.zobrist_hist)) :
    frameOf (undo_move O s) = frameOf st := by
  have hb : s.board = (O.do_move st.board m).1 := congrArg Prod.fst hs
  have hr : s.rev_moves = (O.do_move st.board m).2 :: st.rev_moves :=
    congrArg (fun p => p.2.1) hs
  have hz : s.zobrist_hist = O.hash (O.do_move st.board m).1 :: st.zobrist_hist :=
    congrArg (fun p => p.2.2) hs
  unfold undo_move
  rw [hr]
  refine frameOf_eq ?_ rfl ?_
  · show O.reverse_move s.board (O.do_move st.board m).2 = st.board
    rw [hb]
    exact hrev st.board m
  · show s.zobrist_hist.tail = st.zobrist_hist
    rw [hz]
    rfl

/-- Unwinding a state just after the root's push (empty `rev_moves`) keeps
the pushed zobrist entry. -/
theorem undo_push_root_spec {B R : Type} (O : BoardOps B R)
    (st s : SearchState B R) (hrevnil : st.rev_moves = [])
    (hs : frameOf s = (st.board, st.rev_moves, O.hash st.board :: st.zobrist_hist)) :
    (undo_move O s).board = st.board ∧ (undo_move O s).rev_moves = [] ∧
    (undo_move O s).zobrist_hist = O.hash st.board :: st.zobrist_hist := by
  have hb : s.board = st.board := congrArg Prod.fst hs
  have hr : s.rev_moves = st.rev_moves := congrArg (fun p => p.2.1) hs
  have hz : s.zobrist_hist = O.hash st.board :: st.zobrist_hist :=
    congrArg (fun p => p.2.2) hs
  unfold undo_move
  rw [hr, hrevnil]
  exact ⟨hb, hr.trans hrevnil, hz⟩

theorem init_pns_facts {B R : Type} (O : BoardOps B R)
    (hrev : ∀ (b : B) (m : GameMove),
      O.reverse_move (O.do_move b m).1 (O.do_move b m).2 = b)
    (st : SearchState B R) (m : GameMove) (depth : Nat) :
    frameOf (init_pns O st m depth).2 = frameOf st ∧
    (init_pns O st m depth).2.tinue_attempts = st.tinue_attempts ∧
    ∀ c, (init_pns O st m depth).1 = some c → c.game_move = m := by
  refine ⟨frameOf_eq (hrev st.board m) rfl rfl, rfl, fun c hc => ?_⟩
  simp only [init_pns] at hc
  repeat split at hc
  all_goals cases hc
  all_goals rfl

theorem init_children_facts {B R : Type} (O : BoardOps B R)
    (hrev : ∀ (b : B) (m : GameMove),
      O.reverse_move (O.do_move b m).1 (O.do_move b m).2 = b) :
    ∀ (ms : List GameMove) (depth : Nat) (st : SearchState B R),
      frameOf (init_children O ms depth st).2 = frameOf st ∧
      (init_children O ms depth st).2.tinue_attempts = st.tinue_attempts ∧
      ∀ c ∈ (init_children O ms depth st).1, c.game_move ∈ ms := by
  intro ms
  induction ms with
  | nil => intro depth st; exact ⟨rfl, rfl, fun c hc => by cases hc⟩
  | cons m rest ih =>
    intro depth st
    obtain ⟨hf, ht, hm⟩ := init_pns_facts O hrev st m depth
    unfold init_children
    rcases hres : init_pns O st m depth with ⟨r, st'⟩
    rw [hres] at hf ht hm
    match r with
    | none =>
      obtain ⟨hf2, ht2, hm2⟩ := ih depth st'
      exact ⟨hf2.trans hf, ht2.trans ht,
        fun c hc => List.mem_cons_of_mem _ (hm2 c hc)⟩
    | some c0 =>
      obtain ⟨hf2, ht2, hm2⟩ := ih depth st'
      refine ⟨hf2.trans hf, ht2.trans ht, fun c hc => ?_⟩
      rcases List.mem_cons.mp hc with rfl | hc
      · exact List.mem_cons.mpr (Or.inl (hm c rfl))
      · exact List.mem_cons_of_mem _ (hm2 c hc)

theorem tinue_evaluate_facts {B R : Type} (O : BoardOps B R) (L : MoveLaws O)
    (st : SearchState B R) (depth : Nat) (res : AttackerOutcome × SearchState B R)
    (h : tinue_evaluate O st depth = some res) :
    frameOf res.2 = frameOf st ∧ res.2.tinue_attempts = st.tinue_attempts ∧
    ∀ ms, res.1 = AttackerOutcome.TakThreats ms → GameMove.null_move ∉ ms := by
  unfold tinue_evaluate at h
  cases hg1 : st.top_moves.get? depth with
  | none => simp only [hg1] at h; cases h
  | some tm =>
    simp only [hg1] at h
    cases hr : (O.can_make_road st.board (some tm.get_best)).1 with
    | some m =>
      simp only [hr] at h
      cases h
      exact ⟨rfl, rfl, fun ms hms => by cases hms⟩
    | none =>
      simp only [hr] at h
      cases hg2 : st.top_moves.get? (depth + 2) with
      | none => simp only [hg2] at h; cases h
      | some tm2 =>
        simp only [hg2] at h
        split at h
        · cases h
          exact ⟨rfl, rfl, fun ms hms => by cases hms⟩
        · cases h
          refine ⟨rfl, rfl, fun ms hms => ?_⟩
          cases hms
          exact L.tak_threats _ _ _

theorem defender_responses_facts {B R : Type} (O : BoardOps B R) (L : MoveLaws O)
    (board : B) (hint : Option (List GameMove)) (res : DefenderOutcome)
    (h : defender_responses O board hint = some res) :
    ∀ ms, res = DefenderOutcome.Defenses ms → GameMove.null_move ∉ ms := by
  have hbase : GameMove.null_move ∉
      (O.generate_all_place_moves board (O.can_make_road board hint).2).filter
        (fun m => !m.is_place_move || m.place_piece.is_blocker) := by
    intro hmem
    exact L.place_moves board _ (L.road_moves board hint)
      (List.mem_of_mem_filter hmem)
  unfold defender_responses at h
  cases hr : (O.can_make_road board hint).1 with
  | some m =>
    simp only [hr] at h
    cases h
    intro ms hms
    cases hms
  | none =>
    simp only [hr] at h
    split at h
    · cases h
    · cases hpl : O.find_placement_road board with
      | some attack =>
        simp only [hpl] at h
        cases h
        intro ms hms
        cases hms
        intro hmem
        rcases List.mem_append.mp hmem with hmem | hmem
        · exact hbase hmem
        · rcases List.mem_singleton.mp hmem with h'
          cases h'
      | none =>
        simp only [hpl] at h
        cases h
        intro ms hms
        cases hms
        exact hbase

theorem mid_moves_facts {B R : Type} (O : BoardOps B R) (L : MoveLaws O)
    (depth : Nat) (st : SearchState B R) (attacker : Bool)
    (res : Sum Bounds (List GameMove) × SearchState B R)
    (hcache : no_null_attempts st.tinue_attempts)
    (h : mid_moves O depth st attacker = some res) :
    frameOf res.2 = frameOf st ∧ no_null_attempts res.2.tinue_attempts ∧
    ∀ ms, res.1 = Sum.inr ms → GameMove.null_move ∉ ms := by
  unfold mid_moves at h
  split at h
  · -- attacker branch
    cases hlook : tableLookup st.tinue_attempts (O.hash st.board) with
    | some cached_val =>
      simp only [hlook] at h
      cases cached_val with
      | HasRoad m =>
        cases h
        exact ⟨rfl, hcache, fun ms hms => by cases hms⟩
      | NoTakThreats =>
        cases h
        exact ⟨rfl, hcache, fun ms hms => by cases hms⟩
      | TakThreats vec =>
        cases h
        refine ⟨rfl, hcache, fun ms hms => ?_⟩
        cases hms
        exact hcache _ _ (tableLookup_mem hlook)
    | none =>
      simp only [hlook] at h
      cases heval : tinue_evaluate O
          { st with tinue_cache_misses := st.tinue_cache_misses + 1 } depth with
      | none => simp only [heval] at h; cases h
      | some eres =>
        simp only [heval] at h
        obtain ⟨hf, ht, hnn⟩ := tinue_evaluate_facts O L _ depth eres heval
        rcases eres with ⟨outcome, st2⟩
        cases outcome with
        | HasRoad m =>
          cases h
          refine ⟨hf, ?_, fun ms hms => by cases hms⟩
          intro hh ms hmem
          rcases List.mem_cons.mp hmem with heq | hmem
          · cases heq
          · rw [ht] at hmem
            exact hcache hh ms hmem
        | NoTakThreats =>
          cases h
          refine ⟨hf, ?_, fun ms hms => by cases hms⟩
          intro hh ms hmem
          rcases List.mem_cons.mp hmem with heq | hmem
          · cases heq
          · rw [ht] at hmem
            exact hcache hh ms hmem
        | TakThreats vec =>
          cases h
          refine ⟨hf, ?_, fun ms hms => ?_⟩
          · intro hh ms hmem
            rcases List.mem_cons.mp hmem with heq | hmem
            · cases heq
              exact hnn _ rfl
            · rw [ht] at hmem
              exact hcache hh ms hmem
          · cases hms
            exact hnn _ rfl
  · -- defender branch
    cases hdef : defender_responses O st.board
        ((st.top_moves.get? depth).map TopMoves.get_best) with
    | none => simp only [hdef] at h; cases h
    | some dres =>
      simp only [hdef] at h
      cases dres with
      | CanWin m =>
        cases hg : st.top_moves.get? depth with
        | none => simp only [hg] at h; cases h
        | some tm =>
          simp only [hg] at h
          cases h
          exact ⟨rfl, hcache, fun ms hms => by cases hms⟩
      | Defenses moves =>
        cases h
        refine ⟨rfl, hcache, fun ms hms => ?_⟩
        cases hms
        exact defender_responses_facts O L _ _ _ hdef _ rfl

theorem undo_move_attempts {B R : Type} (O : BoardOps B R) (s : SearchState B R) :
    (undo_move O s).tinue_attempts = s.tinue_attempts := by
  unfold undo_move
  split <;> rfl

theorem frame_components {B R : Type} {s : SearchState B R} {b : B} {r : List R}
    {z : List Nat} (h : frameOf s = (b, r, z)) :
    s.board = b ∧ s.rev_moves = r ∧ s.zobrist_hist = z :=
  ⟨congrArg Prod.fst h, congrArg (fun p => p.2.1) h, congrArg (fun p => p.2.2) h⟩

theorem undo_move_of_rev_nil {B R : Type} (O : BoardOps B R) (s : SearchState B R)
    (h : s.rev_moves = []) : undo_move O s = s := by
  unfold undo_move
  rw [h]

theorem frame_after_push {B R : Type} (O : BoardOps B R) {s t : SearchState B R}
    (m : GameMove)
    (hb : s.board = (O.do_move t.board m).1)
    (hr : s.rev_moves = (O.do_move t.board m).2 :: t.rev_moves)
    (hz : s.zobrist_hist = O.hash (O.do_move t.board m).1 :: t.zobrist_hist)
    (hrev : O.reverse_move (O.do_move t.board m).1 (O.do_move t.board m).2
      = t.board) :
    frameOf (undo_move O s) = frameOf t := by
  unfold undo_move
  rw [hr]
  refine frameOf_eq ?_ rfl ?_
  · show O.reverse_move s.board (O.do_move t.board m).2 = t.board
    rw [hb]
    exact hrev
  · show s.zobrist_hist.tail = t.zobrist_hist
    rw [hz]
    rfl

/-- **Frame analysis of `mid` (claim C3).**  Every terminating,
non-panicking run of `mid` on a child carrying a real (non-null) move
restores `board`, `rev_moves` and `zobrist_hist` exactly; a run on the
root child (null move, empty `rev_moves`) restores `board` and
`rev_moves` but leaves the root hash as one extra `zobrist_hist` entry
unless it aborted before pushing.  The cached-threat invariant and the
preservation of the child's move are carried through the induction. -/
theorem mid_midLoop_frame {B R : Type} (O : BoardOps B R) (L : MoveLaws O) :
    ∀ fuel : Nat,
      (∀ (child : Child) (depth : Nat) (st : SearchState B R)
        (res : Child × SearchState B R),
        no_null_attempts st.tinue_attempts →
        mid O fuel child depth st = some res →
        no_null_attempts res.2.tinue_attempts ∧
        res.1.game_move = child.game_move ∧
        (child.game_move ≠ GameMove.null_move → frameOf res.2 = frameOf st) ∧
        (child.game_move = GameMove.null_move → st.rev_moves = [] →
          res.2.board = st.board ∧ res.2.rev_moves = [] ∧
          (res.2.zobrist_hist = st.zobrist_hist ∨
            res.2.zobrist_hist = O.hash st.board :: st.zobrist_hist))) ∧
      (∀ (child : Child) (depth : Nat) (pns : List Child) (st : SearchState B R)
        (res : Child × SearchState B R),
        (∀ c ∈ pns, c.game_move ≠ GameMove.null_move) →
        no_null_attempts st.tinue_attempts →
        midLoop O fuel child depth pns st = some res →
        no_null_attempts res.2.tinue_attempts ∧
        res.1.game_move = child.game_move ∧
        frameOf res.2 = frameOf (undo_move O st)) := by
  intro fuel
  induction fuel with
  | zero =>
    constructor
    · intro child depth st res _ hrun
      cases hrun
    · intro child depth pns st res _ _ hrun
      cases hrun
  | succ f ih =>
    obtain ⟨ihMid, ihLoop⟩ := ih
    constructor
    · intro child depth st res hCache hrun
      simp only [mid] at hrun
      split at hrun
      · -- abort before any move
        cases hrun
        refine ⟨hCache, rfl, fun _ => rfl, fun _ hnil => ⟨rfl, hnil, Or.inl rfl⟩⟩
      · by_cases hroot : child.game_move = GameMove.null_move
        · -- root invocation: no move is applied
          simp only [hroot, ne_eq, not_true_eq_false, if_false, ite_false] at hrun
          split at hrun
          · cases hrun
          · split at hrun
            · -- terminal flat game at the root
              cases hrun
              refine ⟨?_, rfl, fun hne => absurd hroot hne, fun _ hnil => ?_⟩
              · rw [undo_move_attempts]
                exact hCache
              · rw [undo_move_of_rev_nil O]
                · exact ⟨rfl, hnil, Or.inr rfl⟩
                · exact hnil
            · -- root expansion
              split at hrun
              · cases hrun
              · -- early Sum.inl exit
                rename_i heq
                have hfacts := mid_moves_facts O L depth _ _ _
                  (by exact hCache) heq
                cases hrun
                refine ⟨?_, rfl, fun hne => absurd hroot hne, fun _ hnil => ?_⟩
                · rw [undo_move_attempts]
                  exact hfacts.2.1
                · have hb9 := frameOf_board hfacts.1
                  have hz9 := frameOf_zob hfacts.1
                  have hr9 := (frameOf_rev hfacts.1).trans hnil
                  rw [undo_move_of_rev_nil O]
                  · exact ⟨hb9, hr9, Or.inr hz9⟩
                  · exact hr9
              · -- Sum.inr: expand children and loop
                rename_i moves stX heq
                have hfacts := mid_moves_facts O L depth _ _ _
                  (by exact hCache) heq
                split at hrun
                · cases hrun
                · have hicf := init_children_facts O L.rev_do moves (depth % 2 ^ 32) stX
                  obtain ⟨hCL, hgmL, hfrL⟩ := ihLoop _ _ _ _ _
                    (by intro c hc heqn
                        exact (hfacts.2.2 moves rfl) (heqn ▸ hicf.2.2 c hc))
                    (by rw [hicf.2.1]; exact hfacts.2.1) hrun
                  refine ⟨hCL, hgmL, fun hne => absurd hroot hne, fun _ hnil => ?_⟩
                  have hfr2 := hfrL.trans (undo_move_frame O (hicf.1.trans hfacts.1))
                  rw [undo_move_of_rev_nil O] at hfr2
                  · have hb9 := frameOf_board hfr2
                    have hz9 := frameOf_zob hfr2
                    have hr9 := (frameOf_rev hfr2).trans hnil
                    exact ⟨hb9, hr9, Or.inr hz9⟩
                  · exact hnil
        · -- a real move: do_move is pushed and every exit unwinds it
          rw [if_pos hroot] at hrun
          split at hrun
          · cases hrun
          · split at hrun
            · -- terminal flat game
              cases hrun
              refine ⟨?_, rfl, fun _ => ?_, fun heq' => absurd heq' hroot⟩
              · rw [undo_move_attempts]
                exact hCache
              · apply frame_after_push O child.game_move
                · rfl
                · rfl
                · rfl
                · exact L.rev_do _ _
            · split at hrun
              · cases hrun
              · -- early Sum.inl exit
                rename_i heq
                have hfacts := mid_moves_facts O L depth _ _ _
                  (by exact hCache) heq
                cases hrun
                refine ⟨?_, rfl, fun _ => ?_, fun heq' => absurd heq' hroot⟩
                · rw [undo_move_attempts]
                  exact hfacts.2.1
                · have hb9 := frameOf_board hfacts.1
                  have hr9 := frameOf_rev hfacts.1
                  have hz9 := frameOf_zob hfacts.1
                  apply frame_after_push O child.game_move
                  · exact hb9
                  · exact hr9
                  · exact hz9
                  · exact L.rev_do _ _
              · -- Sum.inr: expand children and loop
                rename_i moves stX heq
                have hfacts := mid_moves_facts O L depth _ _ _
                  (by exact hCache) heq
                split at hrun
                · cases hrun
                · have hicf := init_children_facts O L.rev_do moves (depth % 2 ^ 32) stX
                  obtain ⟨hCL, hgmL, hfrL⟩ := ihLoop _ _ _ _ _
                    (by intro c hc heqn
                        exact (hfacts.2.2 moves rfl) (heqn ▸ hicf.2.2 c hc))
                    (by rw [hicf.2.1]; exact hfacts.2.1) hrun
                  refine ⟨hCL, hgmL, fun _ => ?_, fun heq' => absurd heq' hroot⟩
                  refine hfrL.trans
                    ((undo_move_frame O (hicf.1.trans hfacts.1)).trans ?_)
                  apply frame_after_push O child.game_move
                  · rfl
                  · rfl
                  · rfl
                  · exact L.rev_do _ _
    · intro child depth pns st res hpns hCache hrun
      simp only [midLoop] at hrun
      split at hrun
      · -- threshold exit
        cases hrun
        refine ⟨?_, rfl, ?_⟩
        · rw [undo_move_attempts]
          exact hCache
        · exact undo_move_frame O (by rfl)
      · split at hrun
        · cases hrun
        · rename_i c0 rest
          split at hrun
          · cases hrun
          · rename_i best_child hget
            split at hrun
            · cases hrun
            · rename_i res' hmid
              have hbcnull : best_child.game_move ≠ GameMove.null_move :=
                hpns _ (List.get?_mem hget)
              obtain ⟨hC', hgm', hfr', -⟩ := ihMid _ _ _ _ (by exact hCache) hmid
              have hfr2 : frameOf res'.2 = frameOf st :=
                (hfr' hbcnull).trans (by rfl)
              obtain ⟨hCL, hgmL, hfrL⟩ := ihLoop _ _ _ _ _
                (by intro c hc heqn
                    rcases List.mem_or_eq_of_mem_set hc with hc2 | hc2
                    · exact hpns c hc2 heqn
                    · rw [hc2, hgm'] at heqn
                      exact hbcnull heqn)
                hC' hrun
              exact ⟨hCL, hgmL, hfrL.trans (undo_move_frame O hfr2)⟩

/-- `TinueSearch::new(board)` (with `max_nodes = usize::MAX` and the
`limit` builder applied on top when a budget is set). -/
def initialSearch {B R : Type} (O : BoardOps B R) (board : B) : SearchState B R :=
  { board := board
    bounds_table := []
    rev_moves := []
    zobrist_hist := []
    attacker := O.side_to_move board
    nodes := 0
    top_moves := List.replicate 100 TopMoves.new
    tinue_attempts := []
    replies := []
    tinue_cache_hits := 0
    tinue_cache_misses := 0
    quiet := false
    max_nodes := 2 ^ 64 - 1 }

/-- The exit mapping of `is_tinue` after `mid` returns: `aborted()` is
`nodes > max_nodes`; otherwise the result is decided by comparing the
root's delta with `INFINITY`. -/
def is_tinue_decision (nodes max_nodes : Nat) (root : Bounds) : Option Bool :=
  if nodes > max_nodes then none
  else if root.delta = INFINITY then some true
  else some false

/-- `TinueSearch::is_tinue`: run `mid` on the root child (null move, root
bounds, current hash) and map the outcome through `is_tinue_decision`. -/
def is_tinue {B R : Type} (O : BoardOps B R) (fuel : Nat) (st : SearchState B R) :
    Option (Option Bool × SearchState B R) :=
  let root := Child.new Bounds.root GameMove.null_move (O.hash st.board)
  match mid O fuel root 0 st with
  | none => none
  | some res => some (is_tinue_decision res.2.nodes res.2.max_nodes res.1.bounds, res.2)

/-- A miniature instantiation of the board interface used to evaluate the
search skeleton on concrete runs: the board is a counter, `do_move`
increments it and records the old value as the reverse move, the hash is
the counter itself, and every position is a terminal flat game. -/
def NatOps : BoardOps Nat Nat where
  do_move b _ := (b + 1, b)
  reverse_move _ r := r
  hash b := b
  side_to_move _ := true
  flat_game _ := true
  can_make_road _ _ := (none, [GameMove.stackMove 1])
  get_tak_threats _ _ _ := []
  generate_aggressive_place_moves _ ms := ms
  generate_all_place_moves _ ms := ms
  find_placement_road _ := none

theorem NatOpsLaws : MoveLaws NatOps :=
  ⟨fun _ _ => rfl,
   (fun _ _ => show GameMove.null_move ∉ [GameMove.stackMove 1] by decide),
   (fun _ _ _ h => by cases h),
   fun _ _ h => h⟩

/-- **Claim C3 (amended).**  Every terminating, non-panicking invocation of
`mid` whose child carries a real (non-null) move restores `board`,
`rev_moves` and `zobrist_hist` exactly, on every return path including the
node-budget abort; the root invocation (null move, started with an empty
`rev_moves` stack) restores `board` and `rev_moves` but may return with the
root hash left as one extra `zobrist_hist` entry, because `undo_move`'s
early return on the empty `rev_moves` stack skips the zobrist pop. -/
theorem mid_frame_spec {B R : Type} (O : BoardOps B R) (L : MoveLaws O)
    (fuel : Nat) (child : Child) (depth : Nat) (st : SearchState B R)
    (res : Child × SearchState B R)
    (hCache : no_null_attempts st.tinue_attempts)
    (hrun : mid O fuel child depth st = some res) :
    (child.game_move ≠ GameMove.null_move → frameOf res.2 = frameOf st) ∧
    (child.game_move = GameMove.null_move → st.rev_moves = [] →
      res.2.board = st.board ∧ res.2.rev_moves = [] ∧
      (res.2.zobrist_hist = st.zobrist_hist ∨
        res.2.zobrist_hist = O.hash st.board :: st.zobrist_hist)) := by
  obtain ⟨-, -, h1, h2⟩ :=
    (mid_midLoop_frame O L fuel).1 child depth st res hCache hrun
  exact ⟨h1, h2⟩

/-- Witness for C3: a terminating non-root run of `mid` on the miniature
instance restores the frame exactly. -/
theorem mid_frame_spec_w :
    (mid NatOps 1 (Child.new ⟨5, 5⟩ (GameMove.stackMove 7) 1) 0
        (initialSearch NatOps 0)).map (fun r => frameOf r.2)
      = some (frameOf (initialSearch NatOps 0)) := by
  cases hx : mid NatOps 1 (Child.new ⟨5, 5⟩ (GameMove.stackMove 7) 1) 0
      (initialSearch NatOps 0) with
  | none =>
    have hs : (mid NatOps 1 (Child.new ⟨5, 5⟩ (GameMove.stackMove 7) 1) 0
        (initialSearch NatOps 0)).isSome = true := by decide
    rw [hx] at hs
    simp at hs
  | some res =>
    have h := (mid_frame_spec NatOps NatOpsLaws 1
        (Child.new ⟨5, 5⟩ (GameMove.stackMove 7) 1) 0 (initialSearch NatOps 0)
        res (by intro hh ms hmem; cases hmem) hx).1 (by decide)
    simp only [Option.map_some']
    exact congrArg some h

/-- **Counterexample to the verbatim claim C3:** the root invocation of
`mid` (the one made by `is_tinue`, with the null move and an empty
`rev_moves` stack) returns with `zobrist_hist = [0]` although it was empty
at entry: the pushed root hash is never popped. -/
theorem mid_root_zobrist_cex :
    (mid NatOps 1 (Child.new Bounds.root GameMove.null_move 0) 0
        (initialSearch NatOps 0)).map (fun r => r.2.zobrist_hist)
      = some [0] ∧
    (initialSearch NatOps 0 : SearchState Nat Nat).zobrist_hist = [] ∧
    ([0] : List Nat) ≠ [] :=
  ⟨by decide, rfl, by decide⟩

/-- **Claim C2 (amended).**  The exit mapping of `is_tinue`: `None` iff the
node counter exceeded `max_nodes`; otherwise `Some(true)` exactly when the
root's delta equals `INFINITY`, and `Some(false)` in every other case
(whether or not the root's phi equals `INFINITY`); and `is_tinue` applies
exactly this mapping to the root child returned by `mid`. -/
theorem is_tinue_exit_semantics :
    (∀ (nodes max_nodes : Nat) (root : Bounds),
      (is_tinue_decision nodes max_nodes root = none ↔ nodes > max_nodes) ∧
      (is_tinue_decision nodes max_nodes root = some true ↔
        nodes ≤ max_nodes ∧ root.delta = INFINITY) ∧
      (is_tinue_decision nodes max_nodes root = some false ↔
        nodes ≤ max_nodes ∧ root.delta ≠ INFINITY)) ∧
    (∀ (B R : Type) (O : BoardOps B R) (fuel : Nat) (st : SearchState B R)
      (c' : Child) (st' : SearchState B R),
      mid O fuel (Child.new Bounds.root GameMove.null_move (O.hash st.board)) 0 st
        = some (c', st') →
      is_tinue O fuel st
        = some (is_tinue_decision st'.nodes st'.max_nodes c'.bounds, st')) := by
  constructor
  · intro nodes max_nodes root
    unfold is_tinue_decision
    by_cases hn : nodes > max_nodes
    · rw [if_pos hn]
      refine ⟨⟨fun _ => hn, fun _ => rfl⟩, ⟨?_, ?_⟩, ⟨?_, ?_⟩⟩
      · intro h
        cases h
      · intro h
        omega
      · intro h
        cases h
      · intro h
        omega
    · rw [if_neg hn]
      by_cases hd : root.delta = INFINITY
      · rw [if_pos hd]
        refine ⟨⟨?_, ?_⟩, ⟨?_, fun _ => rfl⟩, ⟨?_, ?_⟩⟩
        · intro h
          cases h
        · intro h
          exact absurd h hn
        · intro h
          exact ⟨by omega, hd⟩
        · intro h
          cases h
        · intro h
          exact absurd hd h.2
      · rw [if_neg hd]
        refine ⟨⟨?_, ?_⟩, ⟨?_, ?_⟩, ⟨?_, fun _ => rfl⟩⟩
        · intro h
          cases h
        · intro h
          exact absurd h hn
        · intro h
          cases h
        · intro h
          exact absurd h.2 hd
        · intro h
          exact ⟨by omega, hd⟩
  · intro B R O fuel st c' st' hmid
    simp only [is_tinue, hmid]

/-- Witness for C2: the decision mapping at a proved root, and a complete
`is_tinue` run on the miniature instance. -/
theorem is_tinue_exit_semantics_w :
    is_tinue_decision 0 10 ⟨3, INFINITY⟩ = some true ∧
    (is_tinue NatOps 1 (initialSearch NatOps 0)).isSome = true := by
  constructor
  · exact (is_tinue_exit_semantics.1 0 10 ⟨3, INFINITY⟩).2.1.mpr ⟨by omega, rfl⟩
  · cases hx : mid NatOps 1
        (Child.new Bounds.root GameMove.null_move
          (NatOps.hash (initialSearch NatOps 0).board)) 0
        (initialSearch NatOps 0) with
    | none =>
      have hs : (mid NatOps 1
          (Child.new Bounds.root GameMove.null_move
            (NatOps.hash (initialSearch NatOps 0).board)) 0
          (initialSearch NatOps 0)).isSome = true := by decide
      rw [hx] at hs
      simp at hs
    | some r =>
      rw [is_tinue_exit_semantics.2 Nat Nat NatOps 1 (initialSearch NatOps 0)
        r.1 r.2 hx]
      rfl

/-- **Counterexample to the verbatim claim C2:** a root whose phi equals
`INFINITY` is not reported as `Some(false)` when its delta is also
`INFINITY`: the code tests only the delta. -/
theorem is_tinue_decision_cex :
    Bounds.infinity.phi = INFINITY ∧
    is_tinue_decision 1 10 Bounds.infinity = some true ∧
    is_tinue_decision 1 10 Bounds.infinity ≠ some false :=
  ⟨rfl, by decide, by decide⟩

/-- `HashMap::entry(k).or_insert(v)` yields the stored value when the key
is present and the default otherwise. -/
theorem entryOrInsert_fst {α : Type} (t : List (Nat × α)) (k : Nat) (v : α) :
    (entryOrInsert t k v).1 = (tableLookup t k).getD v := by
  unfold entryOrInsert
  cases tableLookup t k <;> rfl

/-- **Claim C4 (amended).**  `init_pns` returns `None` iff the current node
is the attacker and the post-move hash repeats in `zobrist_hist`; otherwise
the returned child carries the requested move, the post-move hash,
`best_child = usize::MAX`, and the `bounds_table` entry for that hash when
present, defaulting to phi=1, delta=(30+d*d mod 2^32) for an attacker node
and phi=((10 or 20)+d*d mod 2^32), delta=1 for a defender node (10 for
stack moves, 20 for placements): the default formulas wrap at 2^32. -/
theorem init_pns_spec {B R : Type} (O : BoardOps B R) (st : SearchState B R)
    (m : GameMove) (depth : Nat) :
    ((init_pns O st m depth).1 = none ↔
      (O.side_to_move st.board == st.attacker) = true ∧
        st.zobrist_hist.contains (O.hash (O.do_move st.board m).1) = true) ∧
    (∀ c, (init_pns O st m depth).1 = some c →
      c.game_move = m ∧
      c.zobrist = O.hash (O.do_move st.board m).1 ∧
      c.best_child = 2 ^ 64 - 1 ∧
      c.bounds = (tableLookup st.bounds_table
          (O.hash (O.do_move st.board m).1)).getD
        (if O.side_to_move st.board == st.attacker then
          ⟨1, u32add 30 (u32mul depth depth)⟩
        else if m.is_stack_move then ⟨u32add 10 (u32mul depth depth), 1⟩
        else ⟨u32add 20 (u32mul depth depth), 1⟩)) := by
  constructor
  · simp only [init_pns]
    split
    · rename_i hcond
      rw [Bool.and_eq_true] at hcond
      exact ⟨fun _ => hcond, fun _ => rfl⟩
    · rename_i hcond
      rw [Bool.and_eq_true] at hcond
      refine ⟨(fun h => by cases h), fun h => absurd h hcond⟩
  · intro c hc
    simp only [init_pns] at hc
    split at hc
    · cases hc
    · cases hc
      exact ⟨rfl, rfl, rfl, entryOrInsert_fst _ _ _⟩

/-- Witness for C4: a defender child on the miniature instance carries the
requested move with the wrapped default bounds. -/
theorem init_pns_spec_w :
    ((init_pns NatOps (initialSearch NatOps 0) (GameMove.stackMove 5) 2).1
        = some ⟨⟨1, 34⟩, GameMove.stackMove 5, 1, 2 ^ 64 - 1⟩) ∧
    (⟨⟨1, 34⟩, GameMove.stackMove 5, 1, 2 ^ 64 - 1⟩ : Child).game_move
      = GameMove.stackMove 5 := by
  refine ⟨by decide, ?_⟩
  exact ((init_pns_spec NatOps (initialSearch NatOps 0) (GameMove.stackMove 5) 2).2
    ⟨⟨1, 34⟩, GameMove.stackMove 5, 1, 2 ^ 64 - 1⟩ (by decide)).1

/-- **Counterexample to the verbatim claim C4:** at depth 65536 the default
delta for a defender child is 30, not 30 + 65536 * 65536: the depth is a
`u32` and the release-mode product wraps to 0. -/
theorem init_pns_cex :
    (init_pns NatOps (initialSearch NatOps 0) (GameMove.stackMove 5) 65536).1
      = some ⟨⟨1, 30⟩, GameMove.stackMove 5, 1, 2 ^ 64 - 1⟩ ∧
    (30 : Nat) ≠ 30 + 65536 * 65536 :=
  ⟨by decide, by decide⟩

/-! ## Stack and BitboardStorage (src/board/stack.rs)

Modelled from the spec: the `BitboardStorage` that `stack.rs` mutates
(module `board::bitboard`, not among the provided sources) carries the
per-color and per-type top-piece boards `white`, `black`, `flat`, `wall`,
`cap` (u64 words as `Nat`) and the running 64-bit zobrist `hash`;
`zobrist_top`/`zobrist_middle` XOR the key for the given
piece/square(/height) into the hash, the key tables being abstracted as
arbitrary functions.  `|=` and `-=` on the boards are u64 bitwise or and
wrapping subtraction; `index_to_bit` is `Bitboard6`'s. -/

theorem add_two_pow_eq_xor : ∀ (j F : Nat), F.testBit j = false →
    F + 2 ^ j = F ^^^ 2 ^ j := by
  intro j
  induction j with
  | zero =>
    intro F h
    rw [Nat.testBit_zero] at h
    have h2 : F % 2 = 0 := by
      rcases Nat.mod_two_eq_zero_or_one F with h' | h'
      · exact h'
      · rw [h'] at h; simp at h
    obtain ⟨m, rfl⟩ : ∃ m, F = 2 * m := ⟨F / 2, by omega⟩
    have hx := Nat.xor_bit false m true 0
    simp [Nat.bit] at hx
    rw [pow_zero]
    omega
  | succ j ih =>
    intro F h
    have hp : (2 : Nat) ^ (j + 1) = 2 * 2 ^ j := by ring
    rcases Nat.mod_two_eq_zero_or_one F with hm | hm
    · obtain ⟨m, rfl⟩ : ∃ m, F = 2 * m := ⟨F / 2, by omega⟩
      have hdiv : 2 * m / 2 = m := by omega
      have hstep := ih m
        (by rw [← hdiv]; exact (Nat.testBit_div_two (2 * m) j).trans h)
      have hx := Nat.xor_bit false m false (2 ^ j)
      simp [Nat.bit] at hx
      rw [hp]
      omega
    · obtain ⟨m, rfl⟩ : ∃ m, F = 2 * m + 1 := ⟨F / 2, by omega⟩
      have hdiv : (2 * m + 1) / 2 = m := by omega
      have hstep := ih m
        (by rw [← hdiv]; exact (Nat.testBit_div_two (2 * m + 1) j).trans h)
      have hx := Nat.xor_bit true m false (2 ^ j)
      simp [Nat.bit] at hx
      rw [hp]
      omega

theorem sub_two_pow_eq_xor {F j : Nat} (h : F.testBit j = true) :
    F - 2 ^ j = F ^^^ 2 ^ j := by
  have hG : (F ^^^ 2 ^ j).testBit j = false := by
    rw [Bitboard6.testBit_xor_two_pow]
    simp [h]
  have hadd := add_two_pow_eq_xor j (F ^^^ 2 ^ j) hG
  rw [Nat.xor_cancel_right] at hadd
  omega

theorem lor_two_pow_eq_add {F j : Nat} (h : F.testBit j = false) :
    F ||| 2 ^ j = F + 2 ^ j := by
  rw [add_two_pow_eq_xor j F h]
  apply Nat.eq_of_testBit_eq
  intro i
  rw [Nat.testBit_lor, Nat.testBit_xor, Nat.testBit_two_pow]
  by_cases hij : j = i
  · subst hij
    rw [h]
    simp
  · simp [hij]

structure ZobristKeys where
  top_key : Piece → Nat → Nat
  mid_key : Piece → Nat → Nat → Nat

structure BitboardStorage where
  white : Nat
  black : Nat
  flat : Nat
  wall : Nat
  cap : Nat
  hash : Nat

def or64 (a b : Nat) : Nat := (a ||| b) % 2 ^ 64

def sub64 (a b : Nat) : Nat := (a + (2 ^ 64 - b % 2 ^ 64)) % 2 ^ 64

def BitboardStorage.zobrist_top (b : BitboardStorage) (K : ZobristKeys)
    (p : Piece) (index : Nat) : BitboardStorage :=
  { b with hash := b.hash ^^^ K.top_key p index }

def BitboardStorage.zobrist_middle (b : BitboardStorage) (K : ZobristKeys)
    (p : Piece) (index height : Nat) : BitboardStorage :=
  { b with hash := b.hash ^^^ K.mid_key p index height }

/-- `Stack`: the per-square pile, bottom first, and its square index. -/
structure Stack where
  data : List Piece
  index : Nat

/-- `Stack::hash_in_top`: set the new top's bits and XOR its top key. -/
def Stack.hash_in_top (s : Stack) (K : ZobristKeys) (b : BitboardStorage) :
    BitboardStorage :=
  let bitboard := Bitboard6.index_to_bit s.index
  match s.data.getLast? with
  | some Piece.whiteFlat =>
    ({ b with
        white := or64 b.white bitboard
        flat := or64 b.flat bitboard }).zobrist_top K Piece.whiteFlat s.index
  | some Piece.blackFlat =>
    ({ b with
        black := or64 b.black bitboard
        flat := or64 b.flat bitboard }).zobrist_top K Piece.blackFlat s.index
  | some Piece.whiteWall =>
    ({ b with
        white := or64 b.white bitboard
        wall := or64 b.wall bitboard }).zobrist_top K Piece.whiteWall s.index
  | some Piece.blackWall =>
    ({ b with
        black := or64 b.black bitboard
        wall := or64 b.wall bitboard }).zobrist_top K Piece.blackWall s.index
  | some Piece.whiteCap =>
    ({ b with
        white := or64 b.white bitboard
        cap := or64 b.cap bitboard }).zobrist_top K Piece.whiteCap s.index
  | some Piece.blackCap =>
    ({ b with
        black := or64 b.black bitboard
        cap := or64 b.cap bitboard }).zobrist_top K Piece.blackCap s.index
  | none => b

/-- `Stack::hash_out_top`: clear the current top's bits (`-=`, u64
wrapping) and XOR its top key. -/
def Stack.hash_out_top (s : Stack) (K : ZobristKeys) (b : BitboardStorage) :
    BitboardStorage :=
  let bitboard := Bitboard6.index_to_bit s.index
  match s.data.getLast? with
  | some Piece.whiteFlat =>
    ({ b with
        white := sub64 b.white bitboard
        flat := sub64 b.flat bitboard }).zobrist_top K Piece.whiteFlat s.index
  | some Piece.blackFlat =>
    ({ b with
        black := sub64 b.black bitboard
        flat := sub64 b.flat bitboard }).zobrist_top K Piece.blackFlat s.index
  | some Piece.whiteWall =>
    ({ b with
        white := sub64 b.white bitboard
        wall := sub64 b.wall bitboard }).zobrist_top K Piece.whiteWall s.index
  | some Piece.blackWall =>
    ({ b with
        black := sub64 b.black bitboard
        wall := sub64 b.wall bitboard }).zobrist_top K Piece.blackWall s.index
  | some Piece.whiteCap =>
    ({ b with
        white := sub64 b.white bitboard
        cap := sub64 b.cap bitboard }).zobrist_top K Piece.whiteCap s.index
  | some Piece.blackCap =>
    ({ b with
        black := sub64 b.black bitboard
        cap := sub64 b.cap bitboard }).zobrist_top K Piece.blackCap s.index
  | none => b

/-- `Stack::push`: hash out the old top, hash the new piece's middle key at
the pre-push height, append, hash in the new top. -/
def Stack.push (s : Stack) (K : ZobristKeys) (item : Piece)
    (b : BitboardStorage) : Stack × BitboardStorage :=
  let b1 := s.hash_out_top K b
  let b2 := b1.zobrist_middle K item s.index s.data.length
  let s2 : Stack := { s with data := s.data ++ [item] }
  (s2, s2.hash_in_top K b2)

/-- `Stack::pop`: hash out the top, remove it, hash its middle key at the
post-pop height, hash in the uncovered top. -/
def Stack.pop (s : Stack) (K : ZobristKeys) (b : BitboardStorage) :
    Option Piece × Stack × BitboardStorage :=
  let b1 := s.hash_out_top K b
  let ret := s.data.getLast?
  let s2 : Stack := { s with data := s.data.dropLast }
  let b2 := match ret with
    | some piece => b1.zobrist_middle K piece s.index s2.data.length
    | none => b1
  (ret, s2, s2.hash_in_top K b2)

/-- Whether a piece occupies the `white` top board. -/
def Piece.contrib_white : Piece → Bool
  | .whiteFlat | .whiteWall | .whiteCap => true
  | _ => false

/-- Whether a piece occupies the `black` top board. -/
def Piece.contrib_black : Piece → Bool
  | .blackFlat | .blackWall | .blackCap => true
  | _ => false

/-- Whether a piece occupies the `flat` top board. -/
def Piece.contrib_flat : Piece → Bool
  | .whiteFlat | .blackFlat => true
  | _ => false

/-- Whether a piece occupies the `wall` top board. -/
def Piece.contrib_wall : Piece → Bool
  | .whiteWall | .blackWall => true
  | _ => false

/-- Whether a piece occupies the `cap` top board. -/
def Piece.contrib_cap : Piece → Bool
  | .whiteCap | .blackCap => true
  | _ => false

def topContrib (c : Piece → Bool) : Option Piece → Bool
  | some p => c p
  | none => false

def topKeyOf (K : ZobristKeys) : Option Piece → Nat → Nat
  | some p, idx => K.top_key p idx
  | none, _ => 0

theorem hash_out_top_white (s : Stack) (K : ZobristKeys) (b : BitboardStorage) :
    (s.hash_out_top K b).white =
      cond (topContrib Piece.contrib_white s.data.getLast?)
        (sub64 b.white (Bitboard6.index_to_bit s.index)) b.white := by
  unfold Stack.hash_out_top
  cases s.data.getLast? with
  | none => rfl
  | some t => cases t <;> rfl

theorem hash_out_top_black (s : Stack) (K : ZobristKeys) (b : BitboardStorage) :
    (s.hash_out_top K b).black =
      cond (topContrib Piece.contrib_black s.data.getLast?)
        (sub64 b.black (Bitboard6.index_to_bit s.index)) b.black := by
  unfold Stack.hash_out_top
  cases s.data.getLast? with
  | none => rfl
  | some t => cases t <;> rfl

theorem hash_out_top_flat (s : Stack) (K : ZobristKeys) (b : BitboardStorage) :
    (s.hash_out_top K b).flat =
      cond (topContrib Piece.contrib_flat s.data.getLast?)
        (sub64 b.flat (Bitboard6.index_to_bit s.index)) b.flat := by
  unfold Stack.hash_out_top
  cases s.data.getLast? with
  | none => rfl
  | some t => cases t <;> rfl

theorem hash_out_top_wall (s : Stack) (K : ZobristKeys) (b : BitboardStorage) :
    (s.hash_out_top K b).wall =
      cond (topContrib Piece.contrib_wall s.data.getLast?)
        (sub64 b.wall (Bitboard6.index_to_bit s.index)) b.wall := by
  unfold Stack.hash_out_top
  cases s.data.getLast? with
  | none => rfl
  | some t => cases t <;> rfl

theorem hash_out_top_cap (s : Stack) (K : ZobristKeys) (b : BitboardStorage) :
    (s.hash_out_top K b).cap =
      cond (topContrib Piece.contrib_cap s.data.getLast?)
        (sub64 b.cap (Bitboard6.index_to_bit s.index)) b.cap := by
  unfold Stack.hash_out_top
  cases s.data.getLast? with
  | none => rfl
  | some t => cases t <;> rfl

theorem hash_out_top_hash (s : Stack) (K : ZobristKeys) (b : BitboardStorage) :
    (s.hash_out_top K b).hash = b.hash ^^^ topKeyOf K s.data.getLast? s.index := by
  unfold Stack.hash_out_top
  cases s.data.getLast? with
  | none => exact (Nat.xor_zero b.hash).symm
  | some t => cases t <;> rfl

theorem hash_in_top_white (s : Stack) (K : ZobristKeys) (b : BitboardStorage) :
    (s.hash_in_top K b).white =
      cond (topContrib Piece.contrib_white s.data.getLast?)
        (or64 b.white (Bitboard6.index_to_bit s.index)) b.white := by
  unfold Stack.hash_in_top
  cases s.data.getLast? with
  | none => rfl
  | some t => cases t <;> rfl

theorem hash_in_top_black (s : Stack) (K : ZobristKeys) (b : BitboardStorage) :
    (s.hash_in_top K b).black =
      cond (topContrib Piece.contrib_black s.data.getLast?)
        (or64 b.black (Bitboard6.index_to_bit s.index)) b.black := by
  unfold Stack.hash_in_top
  cases s.data.getLast? with
  | none => rfl
  | some t => cases t <;> rfl

theorem hash_in_top_flat (s : Stack) (K : ZobristKeys) (b : BitboardStorage) :
    (s.hash_in_top K b).flat =
      cond (topContrib Piece.contrib_flat s.data.getLast?)
        (or64 b.flat (Bitboard6.index_to_bit s.index)) b.flat := by
  unfold Stack.hash_in_top
  cases s.data.getLast? with
  | none => rfl
  | some t => cases t <;> rfl

theorem hash_in_top_wall (s : Stack) (K : ZobristKeys) (b : BitboardStorage) :
    (s.hash_in_top K b).wall =
      cond (topContrib Piece.contrib_wall s.data.getLast?)
        (or64 b.wall (Bitboard6.index_to_bit s.index)) b.wall := by
  unfold Stack.hash_in_top
  cases s.data.getLast? with
  | none => rfl
  | some t => cases t <;> rfl

theorem hash_in_top_cap (s : Stack) (K : ZobristKeys) (b : BitboardStorage) :
    (s.hash_in_top K b).cap =
      cond (topContrib Piece.contrib_cap s.data.getLast?)
        (or64 b.cap (Bitboard6.index_to_bit s.index)) b.cap := by
  unfold Stack.hash_in_top
  cases s.data.getLast? with
  | none => rfl
  | some t => cases t <;> rfl

theorem hash_in_top_hash (s : Stack) (K : ZobristKeys) (b : BitboardStorage) :
    (s.hash_in_top K b).hash = b.hash ^^^ topKeyOf K s.data.getLast? s.index := by
  unfold Stack.hash_in_top
  cases s.data.getLast? with
  | none => exact (Nat.xor_zero b.hash).symm
  | some t => cases t <;> rfl

theorem or64_two_pow_set {F j : Nat} (hF : F < 2 ^ 64) (hj : j < 64)
    (h : F.testBit j = false) : or64 F (2 ^ j) = F + 2 ^ j := by
  have hjlt : (2 : Nat) ^ j < 2 ^ 64 := Nat.pow_lt_pow_right (by norm_num) hj
  have hlt : F + 2 ^ j < 2 ^ 64 := by
    rw [add_two_pow_eq_xor j F h]
    exact Nat.xor_lt_two_pow hF hjlt
  unfold or64
  rw [lor_two_pow_eq_add h, Nat.mod_eq_of_lt hlt]

theorem sub64_two_pow {F j : Nat} (hj : j < 64) (hF : F < 2 ^ 64)
    (hle : 2 ^ j ≤ F) : sub64 F (2 ^ j) = F - 2 ^ j := by
  have hjlt : (2 : Nat) ^ j < 2 ^ 64 := Nat.pow_lt_pow_right (by norm_num) hj
  unfold sub64
  rw [Nat.mod_eq_of_lt hjlt]
  have he : F + (2 ^ 64 - 2 ^ j) = F - 2 ^ j + 2 ^ 64 := by omega
  rw [he, Nat.add_mod_right,
    Nat.mod_eq_of_lt (Nat.lt_of_le_of_lt (Nat.sub_le F (2 ^ j)) hF)]

/-- The four-stage evolution of one top board across `push p; pop`:
`c0` is the old top's contribution, `ci` the pushed piece's; under the
invariant that the board's bit reflects the old top, the board returns to
its original value. -/
theorem field_round (c0 ci : Bool) {F j : Nat} (hF : F < 2 ^ 64) (hj : j < 64)
    (hhyp : F &&& 2 ^ j = cond c0 (2 ^ j) 0) :
    (let F1 := cond c0 (sub64 F (2 ^ j)) F
     let F2 := cond ci (or64 F1 (2 ^ j)) F1
     let F3 := cond ci (sub64 F2 (2 ^ j)) F2
     cond c0 (or64 F3 (2 ^ j)) F3) = F := by
  have hjlt : (2 : Nat) ^ j < 2 ^ 64 := Nat.pow_lt_pow_right (by norm_num) hj
  have hpos : 0 < 2 ^ j := Nat.two_pow_pos j
  cases c0 with
  | false =>
    have htb : F.testBit j = false := by
      have h2 := Nat.and_two_pow F j
      rw [hhyp] at h2
      cases hb : F.testBit j
      · rfl
      · rw [hb] at h2
        simp at h2
        omega
    cases ci with
    | false => rfl
    | true =>
      show sub64 (or64 F (2 ^ j)) (2 ^ j) = F
      rw [or64_two_pow_set hF hj htb]
      unfold sub64
      rw [Nat.mod_eq_of_lt hjlt]
      have he : F + 2 ^ j + (2 ^ 64 - 2 ^ j) = F + 2 ^ 64 := by omega
      rw [he, Nat.add_mod_right, Nat.mod_eq_of_lt hF]
  | true =>
    have htb : F.testBit j = true := by
      have h2 := Nat.and_two_pow F j
      rw [hhyp] at h2
      cases hb : F.testBit j
      · rw [hb] at h2
        simp at h2
      · rfl
    have hle : 2 ^ j ≤ F := by
      have hal : F &&& 2 ^ j ≤ F := Nat.and_le_left
      rw [hhyp] at hal
      simpa using hal
    have hsub : sub64 F (2 ^ j) = F - 2 ^ j := sub64_two_pow hj hF hle
    have htb2 : (F - 2 ^ j).testBit j = false := by
      rw [sub_two_pow_eq_xor htb, Bitboard6.testBit_xor_two_pow]
      simp [htb]
    have hor : or64 (F - 2 ^ j) (2 ^ j) = F := by
      rw [or64_two_pow_set (by omega) hj htb2]
      omega
    cases ci with
    | false =>
      show or64 (sub64 F (2 ^ j)) (2 ^ j) = F
      rw [hsub, hor]
    | true =>
      show or64 (sub64 (or64 (sub64 F (2 ^ j)) (2 ^ j)) (2 ^ j)) (2 ^ j) = F
      rw [hsub, hor, hsub, hor]

theorem index_to_bit_pow (i : Nat) :
    ∃ j, j < 64 ∧ Bitboard6.index_to_bit i = 2 ^ j := by
  refine ⟨Bitboard6.INDEX_TO_BIT.getD i 0, ?_, ?_⟩
  · by_cases h : i < 36
    · interval_cases i <;> decide
    · have hlen : Bitboard6.INDEX_TO_BIT.length = 36 := rfl
      rw [List.getD_eq_default _ _ (by rw [hlen]; omega)]
      omega
  · unfold Bitboard6.index_to_bit
    rw [Nat.shiftLeft_eq, one_mul]

/-- **Claim C7 (amended).**  When the storage's boards are 64-bit words
whose bit at the stack's square reflects the stack's current top piece
(invariant (c) of §3 of the specification), `push(p)` followed by `pop`
returns `Some p` and restores the stack, all five top-piece boards and the
zobrist hash to their values before the push. -/
theorem stack_push_pop_spec (K : ZobristKeys) (s : Stack) (b : BitboardStorage)
    (p : Piece)
    (hwB : b.white < 2 ^ 64) (hbB : b.black < 2 ^ 64) (hfB : b.flat < 2 ^ 64)
    (haB : b.wall < 2 ^ 64) (hcB : b.cap < 2 ^ 64)
    (hw : b.white &&& Bitboard6.index_to_bit s.index
      = cond (topContrib Piece.contrib_white s.data.getLast?)
          (Bitboard6.index_to_bit s.index) 0)
    (hb : b.black &&& Bitboard6.index_to_bit s.index
      = cond (topContrib Piece.contrib_black s.data.getLast?)
          (Bitboard6.index_to_bit s.index) 0)
    (hf : b.flat &&& Bitboard6.index_to_bit s.index
      = cond (topContrib Piece.contrib_flat s.data.getLast?)
          (Bitboard6.index_to_bit s.index) 0)
    (ha : b.wall &&& Bitboard6.index_to_bit s.index
      = cond (topContrib Piece.contrib_wall s.data.getLast?)
          (Bitboard6.index_to_bit s.index) 0)
    (hc : b.cap &&& Bitboard6.index_to_bit s.index
      = cond (topContrib Piece.contrib_cap s.data.getLast?)
          (Bitboard6.index_to_bit s.index) 0) :
    (s.push K p b).1.pop K (s.push K p b).2 = (some p, s, b) := by
  obtain ⟨j, hj, hbit⟩ := index_to_bit_pow s.index
  rw [hbit] at hw hb hf ha hc
  simp only [Stack.push, Stack.pop, List.getLast?_concat, List.dropLast_concat,
    Prod.mk.injEq]
  refine ⟨trivial, trivial, ?_⟩
  have hW : _ = b.white := field_round
    (topContrib Piece.contrib_white s.data.getLast?) (Piece.contrib_white p)
    hwB hj hw
  have hB : _ = b.black := field_round
    (topContrib Piece.contrib_black s.data.getLast?) (Piece.contrib_black p)
    hbB hj hb
  have hF : _ = b.flat := field_round
    (topContrib Piece.contrib_flat s.data.getLast?) (Piece.contrib_flat p)
    hfB hj hf
  have hA : _ = b.wall := field_round
    (topContrib Piece.contrib_wall s.data.getLast?) (Piece.contrib_wall p)
    haB hj ha
  have hC : _ = b.cap := field_round
    (topContrib Piece.contrib_cap s.data.getLast?) (Piece.contrib_cap p)
    hcB hj hc
  have hH : ∀ T M P h0 : Nat, h0 ^^^ T ^^^ M ^^^ P ^^^ P ^^^ M ^^^ T = h0 := by
    intro T M P h0
    rw [Nat.xor_cancel_right, Nat.xor_cancel_right, Nat.xor_cancel_right]
  cases b with
  | mk bw bb bf ba bc bh =>
    have he : ∀ x : BitboardStorage, x.white = bw → x.black = bb → x.flat = bf →
        x.wall = ba → x.cap = bc → x.hash = bh →
        x = BitboardStorage.mk bw bb bf ba bc bh := by
      intro x h1 h2 h3 h4 h5 h6
      cases x
      simp only at h1 h2 h3 h4 h5 h6
      rw [h1, h2, h3, h4, h5, h6]
    refine he _ ?_ ?_ ?_ ?_ ?_ ?_
    · simp only [hash_in_top_white, hash_out_top_white,
        BitboardStorage.zobrist_middle, List.getLast?_concat, topContrib, hbit]
      exact hW
    · simp only [hash_in_top_black, hash_out_top_black,
        BitboardStorage.zobrist_middle, List.getLast?_concat, topContrib, hbit]
      exact hB
    · simp only [hash_in_top_flat, hash_out_top_flat,
        BitboardStorage.zobrist_middle, List.getLast?_concat, topContrib, hbit]
      exact hF
    · simp only [hash_in_top_wall, hash_out_top_wall,
        BitboardStorage.zobrist_middle, List.getLast?_concat, topContrib, hbit]
      exact hA
    · simp only [hash_in_top_cap, hash_out_top_cap,
        BitboardStorage.zobrist_middle, List.getLast?_concat, topContrib, hbit]
      exact hC
    · simp only [hash_in_top_hash, hash_out_top_hash,
        BitboardStorage.zobrist_middle, List.getLast?_concat, topKeyOf]
      exact hH _ _ _ _

/-- A zobrist key assignment for concrete runs. -/
def zeroKeys : ZobristKeys := ⟨fun _ _ => 0, fun _ _ _ => 0⟩

/-- Witness for C7: a consistent storage (black flat on square 3) is
restored exactly by push-then-pop of a white cap. -/
theorem stack_push_pop_spec_w :
    ((Stack.mk [Piece.blackFlat] 3).push zeroKeys Piece.whiteCap
        (BitboardStorage.mk 0 (2 ^ 12) (2 ^ 12) 0 0 7)).1.pop zeroKeys
      ((Stack.mk [Piece.blackFlat] 3).push zeroKeys Piece.whiteCap
        (BitboardStorage.mk 0 (2 ^ 12) (2 ^ 12) 0 0 7)).2
      = (some Piece.whiteCap, Stack.mk [Piece.blackFlat] 3,
          BitboardStorage.mk 0 (2 ^ 12) (2 ^ 12) 0 0 7) :=
  stack_push_pop_spec zeroKeys _ _ _ (by decide) (by decide) (by decide)
    (by decide) (by decide) (by decide) (by decide) (by decide) (by decide)
    (by decide)

/-- **Counterexample to the verbatim claim C7:** with a storage violating
the top-consistency invariant (the square's `white` bit set over an empty
stack), push-then-pop does not restore `white`: the claim does not hold for
*every* BitboardStorage. -/
theorem stack_push_pop_cex :
    ((Stack.mk [] 0).push zeroKeys Piece.whiteFlat
        (BitboardStorage.mk (2 ^ 9) 0 0 0 0 0)).1.pop zeroKeys
      ((Stack.mk [] 0).push zeroKeys Piece.whiteFlat
        (BitboardStorage.mk (2 ^ 9) 0 0 0 0 0)).2
      |>.2.2.white = 0 ∧
    (BitboardStorage.mk (2 ^ 9) 0 0 0 0 0).white ≠ 0 :=
  ⟨by decide, by decide⟩

/-! ## execute_moves_check_valid (src/lib.rs)

Modelled from the spec where needed: `GameMove::try_from_ptn`,
`generate_all_moves` and `Board6::do_move` are not among the provided
sources and are abstracted as functions (parsing is board-dependent in the
source, and the PTN strings are an abstract type); the two `anyhow` errors
of the source are a small error type. -/

inductive ExecError where
  | invalidPtn
  | illegalMove
deriving DecidableEq, Repr

structure ExecOps (S B : Type) where
  try_from_ptn : S → B → Option GameMove
  generate_all_moves : B → List GameMove
  do_move : B → GameMove → B

/-- `execute_moves_check_valid`: parse each string against the current
board, require the parsed move to be generated, apply it; the board is
mutated in place, so an error leaves the moves already made applied. -/
def execute_moves_check_valid {S B : Type} (O : ExecOps S B) :
    B → List S → B × Except ExecError (List GameMove)
  | board, [] => (board, .ok [])
  | board, m_str :: rest =>
    match O.try_from_ptn m_str board with
    | none => (board, .error .invalidPtn)
    | some m =>
      if (O.generate_all_moves board).contains m then
        match execute_moves_check_valid O (O.do_move board m) rest with
        | (bf, .ok ms) => (bf, .ok (m :: ms))
        | (bf, .error e) => (bf, .error e)
      else (board, .error .illegalMove)

/-- The spec-side prefix run: apply the strings one by one while each
parses and is contained in the generator's output. -/
def legal_run {S B : Type} (O : ExecOps S B) : B → List S → Option B
  | board, [] => some board
  | board, m_str :: rest =>
    match O.try_from_ptn m_str board with
    | none => none
    | some m =>
      if (O.generate_all_moves board).contains m then
        legal_run O (O.do_move board m) rest
      else none

/-- **Claim C8.**  If, after a legal prefix, a string fails to parse or its
parsed move is not contained in the output of `generate_all_moves` for the
current position, `execute_moves_check_valid` returns an error and the
board is exactly the board after the preceding legal moves: the offending
move and everything after it are not applied. -/
theorem execute_moves_check_valid_spec {S B : Type} (O : ExecOps S B) :
    ∀ (pre : List S) (board b2 : B) (bad : S) (rest : List S),
      legal_run O board pre = some b2 →
      ((O.try_from_ptn bad b2 = none →
        execute_moves_check_valid O board (pre ++ bad :: rest)
          = (b2, Except.error ExecError.invalidPtn)) ∧
       (∀ m, O.try_from_ptn bad b2 = some m →
        (O.generate_all_moves b2).contains m = false →
        execute_moves_check_valid O board (pre ++ bad :: rest)
          = (b2, Except.error ExecError.illegalMove))) := by
  intro pre
  induction pre with
  | nil =>
    intro board b2 bad rest hpre
    obtain rfl : board = b2 := by
      simp only [legal_run] at hpre
      injection hpre
    constructor
    · intro hnone
      simp only [List.nil_append, execute_moves_check_valid, hnone]
    · intro m hm hcon
      simp only [List.nil_append, execute_moves_check_valid, hm]
      rw [if_neg (by rw [hcon]; exact Bool.false_ne_true)]
  | cons s pre' ih =>
    intro board b2 bad rest hpre
    simp only [legal_run] at hpre
    cases hps : O.try_from_ptn s board with
    | none =>
      simp only [hps] at hpre
      cases hpre
    | some m =>
      simp only [hps] at hpre
      cases hcon : (O.generate_all_moves board).contains m with
      | false =>
        rw [hcon] at hpre
        simp at hpre
      | true =>
        rw [hcon] at hpre
        simp at hpre
        obtain ⟨h1, h2⟩ := ih (O.do_move board m) b2 bad rest hpre
        constructor
        · intro hnone
          have hrec := h1 hnone
          simp only [List.cons_append, execute_moves_check_valid, hps]
          rw [if_pos (by rw [hcon]),
            show List.append pre' (bad :: rest) = pre' ++ bad :: rest from rfl,
            hrec]
        · intro m2 hm2 hcon2
          have hrec := h2 m2 hm2 hcon2
          simp only [List.cons_append, execute_moves_check_valid, hps]
          rw [if_pos (by rw [hcon]),
            show List.append pre' (bad :: rest) = pre' ++ bad :: rest from rfl,
            hrec]

/-- A miniature parse/generate/apply instance: "strings" are numbers, 99
fails to parse, only stack moves 1 and 2 are ever legal, `do_move` counts
the moves made. -/
def NatExec : ExecOps Nat Nat where
  try_from_ptn s _ := if s = 99 then none else some (GameMove.stackMove s)
  generate_all_moves _ := [GameMove.stackMove 1, GameMove.stackMove 2]
  do_move b _ := b + 1

/-- Witness for C8: after the legal prefix `[1]`, the illegal `7` stops the
run with an error and the board reflects only the prefix. -/
theorem execute_moves_check_valid_spec_w :
    execute_moves_check_valid NatExec 0 [1, 7, 2]
      = (1, Except.error ExecError.illegalMove) :=
  (execute_moves_check_valid_spec NatExec [1] 0 1 7 [2] (by decide)).2
    (GameMove.stackMove 7) (by decide) (by decide)

end TopazTak
